import Mathlib

/-!
Verification of the AvaScenarioMapper scenario-filtering core.

This file gives a shallow embedding of the scenario-filtering engine of the
repository (src/com3AvaScenFilter/avaScenFilter.py, src/in2Matrix/avaPotMatrix.py,
src/in1Utils/mapperUtils.py) and proves properties of it.

Modelling conventions:
* a pandas DataFrame / GeoDataFrame column subset relevant to filtering is a
  `Table`: a list of column names plus rows, each row a list of cell values
  aligned with the column list (the geometry column plays no role in any filter
  and is treated like any other untouched column);
* a cell is a `Value`: a string, an integer, or the null sentinel (NaN / pd.NA);
  `pd.to_numeric(..., errors="coerce")` is `toNumericV` (non-numeric strings
  become null, never raise);
* Python `str.lower()/.upper()/.strip()` are modelled on the character list of
  the string (`pyLower`, `pyUpper`, `pyStrip`);
* logging is modelled as a list of `LogEvent`s returned next to the table;
* `drop_duplicates(keep="first")` is `dedupKeep`.  The multi-column
  `sort_values` of the size=1 branch is a numpy lexsort, which is stable, and
  is modelled by a stable `List.insertionSort`.  The single-column
  `sort_values(by="rSize", ascending=False)` of the deduplication stage uses
  pandas' default quicksort, whose contract fixes only a permutation ordered
  descending in the key and says nothing about the relative order of tied
  rows; that contract is `isDescSortOf`, the stage with an explicit admissible
  sort output is `dedupStageOn`, and the executable pipeline `dedupStage`
  realizes one admissible output with an insertion sort.
-/

namespace AvaMapper

/-- A cell of the tabular dataset: a string, an integer, or the null sentinel
(NaN / pd.NA).  Numeric cells are modelled as integers: every numeric value the
filter logic compares, joins or sorts on (mobility codes, size index,
subcatchment id, elevation bounds in the configuration) is integral in the
data contract. -/
inductive Value where
  | str (s : String)
  | num (n : Int)
  | null
deriving DecidableEq, Repr

/-- ASCII case table used to model Python `str.lower` / `str.upper`. -/
def lowerPairs : List (Char × Char) :=
  [('A', 'a'), ('B', 'b'), ('C', 'c'), ('D', 'd'), ('E', 'e'), ('F', 'f'),
   ('G', 'g'), ('H', 'h'), ('I', 'i'), ('J', 'j'), ('K', 'k'), ('L', 'l'),
   ('M', 'm'), ('N', 'n'), ('O', 'o'), ('P', 'p'), ('Q', 'q'), ('R', 'r'),
   ('S', 's'), ('T', 't'), ('U', 'u'), ('V', 'v'), ('W', 'w'), ('X', 'x'),
   ('Y', 'y'), ('Z', 'z')]

/-- Lower-case a character (ASCII, as the column values at hand are ASCII). -/
def chLower (c : Char) : Char :=
  ((lowerPairs.find? (fun p => p.1 = c)).map Prod.snd).getD c

/-- Upper-case a character. -/
def chUpper (c : Char) : Char :=
  ((lowerPairs.find? (fun p => p.2 = c)).map Prod.fst).getD c

/-- Whitespace test used by Python `str.strip`. -/
def wsp (c : Char) : Bool :=
  c = ' ' || c = '\t' || c = '\n' || c = '\r'

/-- Python `str.lower()`. -/
def pyLower (s : String) : String := ⟨s.data.map chLower⟩

/-- Python `str.upper()`. -/
def pyUpper (s : String) : String := ⟨s.data.map chUpper⟩

/-- Strip whitespace from both ends of a character list. -/
def stripChars (l : List Char) : List Char :=
  ((l.dropWhile wsp).reverse.dropWhile wsp).reverse

/-- Python `str.strip()`. -/
def pyStrip (s : String) : String := ⟨stripChars s.data⟩

/-- Python `str(value)` on a cell (`astype(str)`): null renders as the string
pandas produces for missing data; the exact rendering is irrelevant to every
claim (it is never equal to a normalized category such as "rel" or "dry"). -/
def pyStr (v : Value) : String :=
  match v with
  | .str s => s
  | .num n => toString n
  | .null => "nan"

/-- `pd.to_numeric(..., errors="coerce")` on one cell: numbers pass through,
parseable strings become numbers, everything else becomes null (never raises). -/
def toNumericV (v : Value) : Value :=
  match v with
  | .num n => .num n
  | .null => .null
  | .str s => match s.toInt? with
    | some n => .num n
    | none => .null

/-- `.astype(str).str.lower().str.strip()` on one cell. -/
def normStrV (v : Value) : Value := .str (pyStrip (pyLower (pyStr v)))

/-- `.astype(str).str.upper().str.strip()` on one cell. -/
def normUpperV (v : Value) : Value := .str (pyStrip (pyUpper (pyStr v)))

/-- A tabular dataset: column names plus rows of cells aligned with them. -/
structure Table where
  cols : List String
  rows : List (List Value)
deriving DecidableEq, Repr

/-- Cell of row `r` (a row of a table with columns `cols`) in column `c`;
null when the column is absent. -/
def getCell (cols : List String) (r : List Value) (c : String) : Value :=
  match cols.findIdx? (· = c) with
  | some i => r.getD i .null
  | none => .null

/-- Cell lookup relative to a table's columns. -/
def Table.get (t : Table) (r : List Value) (c : String) : Value :=
  getCell t.cols r c

/-- `col in df.columns`. -/
def Table.hasCol (t : Table) (c : String) : Bool := t.cols.contains c

/-- `df[mask]`: keep the rows satisfying the predicate. -/
def Table.filterRows (t : Table) (p : List Value → Bool) : Table :=
  { t with rows := t.rows.filter p }

/-- `df.iloc[0:0]`: same columns, no rows. -/
def Table.emptyLike (t : Table) : Table := { t with rows := [] }

/-- `df[c] = f(df[c])` for a column already present (no-op when absent,
mirroring the `if col in df.columns` guards at every use site). -/
def Table.mapCol (t : Table) (c : String) (f : Value → Value) : Table :=
  match t.cols.findIdx? (· = c) with
  | some i => { t with rows := t.rows.map (fun r => r.set i (f (r.getD i .null))) }
  | none => t

/-- `df[c] = v` (a constant column): overwrite if present, else append. -/
def Table.setConst (t : Table) (c : String) (v : Value) : Table :=
  match t.cols.findIdx? (· = c) with
  | some i => { t with rows := t.rows.map (fun r => r.set i v) }
  | none => { cols := t.cols ++ [c], rows := t.rows.map (fun r => r ++ [v]) }

/-- `df.rename(columns={a: b})`. -/
def Table.renameExact (t : Table) (a b : String) : Table :=
  { t with cols := t.cols.map (fun c => if c = a then b else c) }

/-- `df.rename(columns=m)` for a whole-column-list mapping. -/
def Table.renameCols (t : Table) (f : String → String) : Table :=
  { t with cols := t.cols.map f }

/-- Well-formedness: every row has exactly one cell per column. -/
def Table.WF (t : Table) : Prop := ∀ r ∈ t.rows, r.length = t.cols.length

instance (t : Table) : Decidable t.WF := by
  unfold Table.WF
  infer_instance

/-- One scenario-criteria record after the loose dictionary has been read
(`criteria.get(...)` plus `_asList` on the two region fields): list-valued
fields hold the already-split lists, with the empty list standing for an
absent / falsy entry, exactly as Python truthiness treats them. -/
structure Criteria where
  name : String := "unnamed"
  LKRegionID : List String := []
  LwdRegionID : List String := []
  regionMode : String := "or"
  subCs : List Value := []
  sectors : List String := []
  flows : List String := []
  elevMin : Option Int := none
  elevMax : Option Int := none
  avaDistPot : List String := []
  avaSizePot : Option Int := none
  applySingleRsizeRule : Bool := true
deriving DecidableEq, Repr

/-- One row of the classification matrix (legend DataFrame), restricted to
the six columns the filter logic reads.  Raw `Value` fields so that the
normalization the code performs on the legend is modelled explicitly. -/
structure LegendRow where
  pot : Value
  sizePot : Value
  PPM : Value
  PEM : Value
  rSize : Value
  modType : Value
deriving DecidableEq, Repr

/-- The per-column normalization `filterScenarioResults` applies to the legend
(`legAll`): lower/strip the potential and modType, coerce the numerics. -/
def LegendRow.normalize (r : LegendRow) : LegendRow :=
  { pot := normStrV r.pot
    sizePot := toNumericV r.sizePot
    PPM := toNumericV r.PPM
    PEM := toNumericV r.PEM
    rSize := toNumericV r.rSize
    modType := normStrV r.modType }

/-- Log events the claims refer to (other log lines carry no data a claim
mentions and are omitted). -/
inductive LogEvent where
  | warnMissing (c : String)
  | legendEmptyDiag (maxByPot : List (String × Option Int))
deriving DecidableEq, Repr

/-- `rsize_from` of `in2Matrix/avaPotMatrix.py`: relative size index from the
mobility-code difference.  Note the bare trailing `else 1`. -/
def rsize_from (ppm pem : Int) : Int :=
  let d := ppm - pem
  if d = 0 then 5 else if d = 1 then 4 else if d = 2 then 3 else if d = 3 then 2 else 1

/-- The matrix blocks of `avaPotMatrix`, verbatim from the source. -/
def potBlocks : List ((String × Int) × List (Int × Int × String)) :=
  [(("very high", 5), [(5, 5, "res / rel"), (4, 4, "res / rel"), (3, 3, "res / rel"), (2, 2, "res / rel")]),
   (("very high", 4), [(5, 4, "res / rel"), (4, 4, "res / rel"), (3, 3, "res / rel"), (2, 2, "res / rel")]),
   (("very high", 3), [(5, 3, "res / rel"), (4, 3, "res / rel"), (3, 3, "res / rel"), (2, 2, "res / rel")]),
   (("very high", 2), [(5, 2, "res / rel"), (4, 2, "res / rel"), (3, 2, "res / rel"), (2, 2, "res / rel")]),
   (("high", 4), [(5, 4, "res / rel"), (4, 3, "res / rel"), (3, 2, "res / rel"), (2, 2, "rel")]),
   (("high", 3), [(5, 3, "res / rel"), (4, 3, "res / rel"), (3, 2, "res / rel"), (2, 2, "rel")]),
   (("high", 2), [(5, 2, "res / rel"), (4, 2, "res / rel"), (3, 2, "res / rel"), (2, 2, "rel")]),
   (("moderate", 3), [(5, 3, "res / rel"), (4, 2, "res / rel"), (3, 3, "rel"), (2, 2, "rel")]),
   (("moderate", 2), [(5, 2, "res / rel"), (4, 2, "res / rel"), (3, 3, "rel"), (2, 2, "rel")]),
   (("low", 2), [(5, 2, "res / rel"), (4, 4, "rel"), (3, 3, "rel"), (2, 2, "rel")])]

/-- `avaPotMatrix()`: flatten the blocks, computing `rSize` with `rsize_from`
(the constant `Source`/`Version` columns are never read by the filter logic
and are omitted). -/
def avaPotMatrix : List LegendRow :=
  potBlocks.flatMap (fun bl =>
    bl.2.map (fun e =>
      { pot := .str bl.1.1
        sizePot := .num bl.1.2
        PPM := .num e.1
        PEM := .num e.2.1
        rSize := .num (rsize_from e.1 e.2.1)
        modType := .str e.2.2 }))

/-- The row invariant claimed for the built-in matrix: size potential in
{2,3,4,5}, code difference in 0..4, and `rSize` the 5 − difference mapping. -/
def matrixRowOk (r : LegendRow) : Bool :=
  match r.sizePot, r.PPM, r.PEM, r.rSize with
  | .num sp, .num ppm, .num pem, .num rs =>
    (sp == 2 || sp == 3 || sp == 4 || sp == 5) && decide (0 ≤ ppm - pem)
      && decide (ppm - pem ≤ 4) && decide (rs = 5 - (ppm - pem))
  | _, _, _, _ => false

/-! ### Column normalizer (`in1Utils/mapperUtils.py`, `normalizeAvaCols`) -/

/-- `str(c).lower() in ("ppm", "pem")`: the rename-map membership test. -/
def ppmPemName (c : String) : Bool := pyLower c = "ppm" || pyLower c = "pem"

/-- The rename the normalizer builds: `{c: c.upper() for c in cols if ...}`. -/
def renameUpMap (c : String) : String := if ppmPemName c then pyUpper c else c

/-- A Python DataFrame variable together with the caller's frame, tracking
whether the variable still aliases the caller's object.  `df.rename` returns a
fresh copy (breaking the alias); `df[col] = ...` writes through the alias. -/
structure PyFrame where
  caller : Table
  cur : Table
  aliased : Bool
deriving DecidableEq, Repr

/-- `df[c] = f(df[c])` on a possibly-aliased frame. -/
def PyFrame.mapCol (st : PyFrame) (c : String) (f : Value → Value) : PyFrame :=
  let cur := st.cur.mapCol c f
  { caller := if st.aliased then cur else st.caller, cur := cur, aliased := st.aliased }

/-- The column list each use of `pd.to_numeric` in `normalizeAvaCols` runs over
followed by the two categorical columns, in source order. -/
def normalizeColFns : List (String × (Value → Value)) :=
  [("subC", toNumericV), ("elevMin", toNumericV), ("elevMax", toNumericV),
   ("rSize", toNumericV), ("PEM", toNumericV), ("PPM", toNumericV),
   ("flow", normStrV), ("modType", normStrV)]

/-- `normalizeAvaCols` with the caller's frame made explicit: returns
(caller's table after the call, returned table).  When the rename map is
non-empty `df.rename` allocates a fresh frame and the caller is untouched;
when it is empty every subsequent column assignment mutates the caller's
frame in place. -/
def normalizeAvaColsRun (t : Table) : Table × Table :=
  let st0 : PyFrame :=
    if t.cols.any ppmPemName then
      { caller := t, cur := t.renameCols renameUpMap, aliased := false }
    else
      { caller := t, cur := t, aliased := true }
  let st1 := normalizeColFns.foldl (fun st p => st.mapCol p.1 p.2) st0
  (st1.caller, st1.cur)

/-- The table `normalizeAvaCols` returns. -/
def normalizeAvaCols (t : Table) : Table := (normalizeAvaColsRun t).2

/-! ### Filter stages (`com3AvaScenFilter/avaScenFilter.py`, `filterScenarioResults`) -/

/-- `series.isin(set(ids))` for a set of id strings. -/
def memberOfStrs (v : Value) (ids : List String) : Bool :=
  ids.any (fun s => v == Value.str s)

/-- Section 1, region filters: masks are built only for non-empty id lists
whose column exists (a warning is logged otherwise); with both masks present
they combine with AND for `regionMode == "and"` and OR otherwise; with one
mask present that mask is used alone; with none the stage is a no-op. -/
def regionStage (t : Table) (lk lwd : List String) (mode : String) : Table × List LogEvent :=
  let lkOk := !lk.isEmpty && t.hasCol "LKGebietID"
  let lwdOk := !lwd.isEmpty && t.hasCol "LWDGebietID"
  let logs :=
    (if !lk.isEmpty && !t.hasCol "LKGebietID" then [LogEvent.warnMissing "LKGebietID"] else [])
      ++ (if !lwd.isEmpty && !t.hasCol "LWDGebietID" then [LogEvent.warnMissing "LWDGebietID"] else [])
  if lkOk || lwdOk then
    (t.filterRows (fun r =>
      if lkOk && lwdOk then
        if mode = "and" then
          memberOfStrs (t.get r "LKGebietID") lk && memberOfStrs (t.get r "LWDGebietID") lwd
        else
          memberOfStrs (t.get r "LKGebietID") lk || memberOfStrs (t.get r "LWDGebietID") lwd
      else if lkOk then memberOfStrs (t.get r "LKGebietID") lk
      else memberOfStrs (t.get r "LWDGebietID") lwd), logs)
  else (t, logs)

/-- Section 2, subcatchment filter: warn and skip when the column is absent. -/
def subCStage (t : Table) (subCs : List Value) : Table × List LogEvent :=
  if subCs.isEmpty then (t, [])
  else if !t.hasCol "subC" then (t, [.warnMissing "subC"])
  else (t.filterRows (fun r => subCs.contains (t.get r "subC")), [])

/-- Section 2, sector filter: criteria are `strip().upper()`-normalized, the
column is `upper().strip()`-normalized in place, then membership. -/
def sectorStage (t : Table) (sectors : List String) : Table × List LogEvent :=
  if sectors.isEmpty then (t, [])
  else if !t.hasCol "sector" then (t, [.warnMissing "sector"])
  else
    let secSet := sectors.map (fun s => pyUpper (pyStrip s))
    let tU := t.mapCol "sector" normUpperV
    (tU.filterRows (fun r =>
      match tU.get r "sector" with
      | .str s => secSet.contains s
      | _ => false), [])

/-- Section 2, flow filter: as the sector filter but lower-cased. -/
def flowStage (t : Table) (flows : List String) : Table × List LogEvent :=
  if flows.isEmpty then (t, [])
  else if !t.hasCol "flow" then (t, [.warnMissing "flow"])
  else
    let flowSet := flows.map (fun f => pyLower (pyStrip f))
    let tL := t.mapCol "flow" normStrV
    (tL.filterRows (fun r =>
      match tL.get r "flow" with
      | .str s => flowSet.contains s
      | _ => false), [])

/-- Section 2, lower elevation bound: coerce then keep `elevMin >= bound`
(null never satisfies a comparison). -/
def elevMinStage (t : Table) (bound : Option Int) : Table × List LogEvent :=
  match bound with
  | none => (t, [])
  | some m =>
    if !t.hasCol "elevMin" then (t, [.warnMissing "elevMin"])
    else
      let tN := t.mapCol "elevMin" toNumericV
      (tN.filterRows (fun r =>
        match tN.get r "elevMin" with
        | .num n => decide (m ≤ n)
        | _ => false), [])

/-- Section 2, upper elevation bound: keep `elevMax <= bound`. -/
def elevMaxStage (t : Table) (bound : Option Int) : Table × List LogEvent :=
  match bound with
  | none => (t, [])
  | some m =>
    if !t.hasCol "elevMax" then (t, [.warnMissing "elevMax"])
    else
      let tN := t.mapCol "elevMax" toNumericV
      (tN.filterRows (fun r =>
        match tN.get r "elevMax" with
        | .num n => decide (n ≤ m)
        | _ => false), [])

/-! ### Section 3: legend filters -/

/-- `pots = [str(p).lower().strip() for p in pots if str(p).strip()]` followed
by the spelling-variant replacement `{"moderat": "moderate"}`. -/
def normalizePots (raw : List String) : List String :=
  (raw.filterMap (fun p => if pyStrip p = "" then none else some (pyStrip (pyLower p)))).map
    (fun p => if p = "moderat" then "moderate" else p)

/-- The normalized legend restricted to the requested potentials and the
reference size class (`legSel`). -/
def legSelOf (legend : List LegendRow) (pots : List String) (sizeRef : Int) : List LegendRow :=
  (legend.map LegendRow.normalize).filter
    (fun r => pots.any (fun p => r.pot == Value.str p) && r.sizePot == Value.num sizeRef)

/-- `series.max()` over the integer values of a list (skipping nulls happens
at the call site via `filterMap`). -/
def listMaxI : List Int → Option Int
  | [] => none
  | n :: ns =>
    match listMaxI ns with
    | none => some n
    | some m => some (max n m)

/-- The integer carried by a cell, if any. -/
def numOf (v : Value) : Option Int :=
  match v with
  | .num n => some n
  | _ => none

/-- `_max_size_for_pots`: per requested potential, the maximum
`AvaSizePotential` in the (re-normalized) legend, `none` when the potential is
absent or carries no numeric size. -/
def maxSizeForPots (legendDf : List LegendRow) (pots : List String) :
    List (String × Option Int) :=
  if legendDf.isEmpty then pots.map (fun p => (p, none))
  else
    let tmp := legendDf.map (fun r =>
      { r with pot := normStrV r.pot, sizePot := toNumericV r.sizePot })
    pots.map (fun p =>
      let sel := tmp.filter (fun r => r.pot == Value.str p)
      if sel.isEmpty then (p, none)
      else (p, listMaxI (sel.filterMap (fun r => numOf r.sizePot))))

/-- The four join-key columns of the legend merge. -/
def joinColNames : List String := ["PPM", "PEM", "rSize", "modType"]

/-- The in-place join-key preparation of section 3: rename a lower-case
`ppm`/`pem` column when its upper-case twin is absent, coerce the three
numeric keys, lower/strip `modType`. -/
def coerceJoinCols (t0 : Table) : Table :=
  let t1 := if t0.hasCol "ppm" && !t0.hasCol "PPM" then t0.renameExact "ppm" "PPM" else t0
  let t2 := if t1.hasCol "pem" && !t1.hasCol "PEM" then t1.renameExact "pem" "PEM" else t1
  (["PPM", "PEM", "rSize"].foldl (fun a c => a.mapCol c toNumericV) t2).mapCol "modType" normStrV

/-- `",".join(sorted(set(pots)))`. -/
def joinedPotsLabel (pots : List String) : String :=
  String.intercalate "," (List.insertionSort (fun a b => a ≤ b) pots.dedup)

/-- Stamp the two scenario-metadata columns (done before the join, so that
even an empty join result carries them). -/
def stampMeta (t : Table) (pots : List String) (sizeRef : Int) : Table :=
  (t.setConst "AvaDistributionPotential" (.str (joinedPotsLabel pots))).setConst
    "AvaSizePotential" (.num sizeRef)

/-- The join-key quadruple of a data row. -/
def rowQuad (t : Table) (r : List Value) : List Value := joinColNames.map (t.get r)

/-- `drop_duplicates(keep="first")` keyed by `f`, carrying the set of keys
already kept. -/
def dedupKeep {α β : Type} (f : α → β) [DecidableEq β] : List α → List β → List α
  | [], _ => []
  | x :: xs, seen =>
    if f x ∈ seen then dedupKeep f xs seen
    else x :: dedupKeep f xs (f x :: seen)

/-- The allowed join-key set: project `legSel` to the quadruple, expand every
`"res / rel"` row into a `"res"` and a `"rel"` row, deduplicate. -/
def expandAllowed (legSel : List LegendRow) : List (List Value) :=
  let base := legSel.map (fun r => [r.PPM, r.PEM, r.rSize, normStrV r.modType])
  let isBoth : List Value → Bool := fun q => q.getD 3 .null == Value.str "res / rel"
  dedupKeep id
    (base.filter (fun q => !isBoth q)
      ++ (base.filter isBoth).map (fun q => q.set 3 (.str "res"))
      ++ (base.filter isBoth).map (fun q => q.set 3 (.str "rel")))
    []

/-- `gdf.merge(allowed, on=joinColNames, how="inner")`: one output row per
(data row, matching allowed row) pair, in left order; the allowed table
contributes no extra columns since it consists of the join keys. -/
def mergeInner (t : Table) (allowed : List (List Value)) : Table :=
  { t with
    rows := t.rows.flatMap (fun r =>
      allowed.filterMap (fun q => if rowQuad t r = q then some r else none)) }

/-- Sort key for descending order with nulls last. -/
def ordDesc (v : Value) : WithBot Int :=
  match v with
  | .num n => (n : WithBot Int)
  | _ => ⊥

/-- Sort key for ascending order with nulls last. -/
def ordAsc (v : Value) : WithTop Int :=
  match v with
  | .num n => (n : WithTop Int)
  | _ => ⊤

/-- The stable-sort order of the size=1 rel-only branch: primary key
ascending, secondary key descending. -/
def size1Rel (kp : List Value → WithTop Int) (kr : List Value → WithBot Int)
    (a b : List Value) : Prop :=
  kp a < kp b ∨ (kp a = kp b ∧ kr b ≤ kr a)

instance (kp : List Value → WithTop Int) (kr : List Value → WithBot Int) :
    DecidableRel (size1Rel kp kr) := fun a b => by
  unfold size1Rel
  infer_instance

/-- Section 3 of `filterScenarioResults` (the legend filter), entered when a
potential list and a size class are both given. -/
def legendStage (t0 : Table) (rawPots : List String) (sizeRef : Int)
    (legend : List LegendRow) : Table × List LogEvent :=
  let pots := normalizePots rawPots
  let t2 := coerceJoinCols t0
  let legAll := legend.map LegendRow.normalize
  let legSel := legSelOf legend pots sizeRef
  if legSel.isEmpty then
    (t2.emptyLike, [.legendEmptyDiag (maxSizeForPots legAll pots)])
  else
    let t3 := stampMeta t2 pots sizeRef
    if sizeRef = 1 then
      if !t3.hasCol "modType" then (t3.emptyLike, [.warnMissing "modType"])
      else
        let relOnly := t3.filterRows (fun r => t3.get r "modType" == Value.str "rel")
        if relOnly.rows.isEmpty then (relOnly, [])
        else if relOnly.hasCol "praID" then
          let kp : List Value → WithTop Int := fun r =>
            if relOnly.hasCol "PEM" then ordAsc (relOnly.get r "PEM") else ⊤
          let kr : List Value → WithBot Int := fun r =>
            if relOnly.hasCol "rSize" then ordDesc (relOnly.get r "rSize") else ⊥
          let sorted := List.insertionSort (size1Rel kp kr) relOnly.rows
          ({ relOnly with rows := dedupKeep (fun r => relOnly.get r "praID") sorted [] }, [])
        else (relOnly, [])
    else
      let allowed := expandAllowed legSel
      if !(joinColNames.all t3.hasCol) then (t3.emptyLike, [.warnMissing "joinKeys"])
      else (mergeInner t3 allowed, [])

/-! ### Section 4: deduplication, and the pipeline -/

/-- The fixed group-key column list of the single-rSize rule. -/
def dedupGroupCols : List String :=
  ["praID", "praAreaM", "praElevMin", "praElevMax", "praElevMean",
   "praElevBand", "praElevBandRule", "praAreaSized",
   "LKGebietID", "LKGebiet", "LKRegion", "LWDGebietID",
   "modType", "subC", "sector", "elevMin", "elevMax", "flow"]

/-- Descending order by a key: a list sorted by this relation is ordered
descending in the key (nulls last when the key maps null to bottom). -/
def descRel {α γ : Type} [LinearOrder γ] (w : α → γ) (a b : α) : Prop := w b ≤ w a

instance {α γ : Type} [LinearOrder γ] (w : α → γ) : DecidableRel (descRel w) := fun a b => by
  unfold descRel
  infer_instance

instance {α γ : Type} [LinearOrder γ] (w : α → γ) : IsTotal α (descRel w) :=
  ⟨fun a b => le_total (w b) (w a)⟩

instance {α γ : Type} [LinearOrder γ] (w : α → γ) : IsTrans α (descRel w) :=
  ⟨fun _ _ _ hab hbc => le_trans hbc hab⟩

/-- The `rSize` sort key of the deduplication stage (nulls last). -/
def rSizeKey (t : Table) (r : List Value) : WithBot Int := ordDesc (t.get r "rSize")

/-- The group-key tuple: the fixed column list restricted to present columns. -/
def groupKey (t : Table) (r : List Value) : List Value :=
  (dedupGroupCols.filter t.hasCol).map (t.get r)

/-- The contract of `gdf.sort_values(by="rSize", ascending=False)`: the output
is a permutation of the rows ordered descending by the `rSize` key (nulls
last).  The call's default `kind="quicksort"` is not stable, and pandas
produces a descending single-column sort by reversing an ascending indexer,
so the relative order of rows with equal keys is not fixed by the call: every
row order satisfying this contract is an admissible sort output. -/
def isDescSortOf (t : Table) (l : List (List Value)) : Prop :=
  l.Perm t.rows ∧ List.Sorted (descRel (rSizeKey t)) l

/-- Section 4 with the sort output made explicit: under the source's guard,
`drop_duplicates(subset=groupCols, keep="first")` applied to a given
admissible output `l` of the descending sort. -/
def dedupStageOn (t : Table) (applySingle : Bool) (l : List (List Value)) : Table :=
  if applySingle && t.hasCol "rSize" && !t.rows.isEmpty then
    { t with rows := dedupKeep (groupKey t) l [] }
  else t

/-- Section 4: when enabled, with an `rSize` column and a non-empty table,
sort descending by `rSize` and keep the first row of every group.  An
executable pipeline must pick one admissible sort output; this one uses an
insertion sort, which satisfies `isDescSortOf`.  The source's quicksort
leaves the order of equal-`rSize` rows unspecified, so no property may depend
on which admissible output is realized (the order-independent guarantees are
stated over `dedupStageOn` for every admissible output). -/
def dedupStage (t : Table) (applySingle : Bool) : Table :=
  if applySingle && t.hasCol "rSize" && !t.rows.isEmpty then
    { t with rows := dedupKeep (groupKey t) (List.insertionSort (descRel (rSizeKey t)) t.rows) [] }
  else t

/-- The guard of the up-front normalization call. -/
def guardOK (t : Table) : Bool :=
  t.hasCol "flow" && (t.hasCol "PEM" || t.hasCol "pem") && (t.hasCol "PPM" || t.hasCol "ppm")

/-- `filterScenarioResults`: normalize columns when the guard fails, then
region filter, attribute filters, legend filter and deduplication, with the
early empty returns of the source (the legend-stage early returns all produce
empty tables, on which the dedup stage is a no-op, so they are composed). -/
def filterScenarioResults (gdf : Table) (crit : Criteria) (legend : List LegendRow) :
    Table × List LogEvent :=
  let regionMode := pyLower (pyStrip (if crit.regionMode = "" then "or" else crit.regionMode))
  let g0 := if guardOK gdf then gdf else normalizeAvaCols gdf
  let s1 := regionStage g0 crit.LKRegionID crit.LwdRegionID regionMode
  if s1.1.rows.isEmpty then s1
  else
    let s2a := subCStage s1.1 crit.subCs
    let s2b := sectorStage s2a.1 crit.sectors
    let s2c := flowStage s2b.1 crit.flows
    let s2d := elevMinStage s2c.1 crit.elevMin
    let s2e := elevMaxStage s2d.1 crit.elevMax
    let l2 := s1.2 ++ s2a.2 ++ s2b.2 ++ s2c.2 ++ s2d.2 ++ s2e.2
    if s2e.1.rows.isEmpty then (s2e.1, l2)
    else
      match crit.avaDistPot, crit.avaSizePot with
      | _ :: _, some sizeRef =>
        let s3 := legendStage s2e.1 crit.avaDistPot sizeRef legend
        (dedupStage s3.1 crit.applySingleRsizeRule, l2 ++ s3.2)
      | _, _ => (dedupStage s2e.1 crit.applySingleRsizeRule, l2)

/-- `runScenarioFilters`: run the pipeline per scenario; a raising scenario is
skipped (the loop body is wrapped in try/except), an empty result is skipped,
a surviving (criteria, result) pair is appended. The pipeline call is a
parameter so that the exception isolation is expressible. -/
def runScenarioFilters (pipe : Criteria → Except String Table)
    (criteriaList : List Criteria) : List (Criteria × Table) :=
  criteriaList.foldl (fun results crit =>
    match pipe crit with
    | .error _ => results
    | .ok survivors =>
      if survivors.rows.isEmpty then results else results ++ [(crit, survivors)]) []

/-! ### Concrete example data used by witnesses and counterexamples -/

/-- A three-column table whose `subC` column is absent. -/
def tMissingSubC : Table :=
  { cols := ["flow", "PEM", "PPM"], rows := [[.str "dry", .num 3, .num 4]] }

/-- Criteria requesting only a subcatchment filter. -/
def critSubCOnly : Criteria := { subCs := [.num 1] }

/-- A one-column table with no PPM/PEM-cased column. -/
def tFlowOnly : Table := { cols := ["flow"], rows := [[.str "DRY"]] }

/-- A join-ready two-row table for the general legend join. -/
def tJoinDemo : Table :=
  { cols := ["PPM", "PEM", "rSize", "modType"],
    rows := [[.num 5, .num 4, .num 4, .str "res"], [.num 5, .num 5, .num 5, .str "res"]] }

/-- A table with both region-id columns. -/
def tRegionDemo : Table :=
  { cols := ["LKGebietID", "LWDGebietID"],
    rows := [[.str "701", .str "A"], [.str "701", .str "B"], [.str "702", .str "A"]] }

/-- A four-row table exercising the single-rSize deduplication. -/
def tDedupDemo : Table :=
  { cols := ["praID", "rSize"],
    rows := [[.str "a", .num 2], [.str "a", .num 5], [.str "b", .num 1], [.str "a", .num 5]] }

/-- A table lacking the `rSize` column. -/
def tNoRSize : Table := { cols := ["praID"], rows := [[.str "a"], [.str "a"]] }

/-- A two-row table whose rows agree on every group column (`praID`) and on
`rSize` but differ in a column outside the group-key list: the deduplication
tie case. -/
def tTieDemo : Table :=
  { cols := ["praID", "rSize", "geom"],
    rows := [[.str "a", .num 5, .str "g1"], [.str "a", .num 5, .str "g2"]] }

/-- Criteria requesting the "high" potential at reference size class 1. -/
def critSizeOne : Criteria :=
  { avaDistPot := ["high"], avaSizePot := some 1 }

/-- A table already carrying normalized columns, for pipeline witnesses. -/
def tPipelineDemo : Table :=
  { cols := ["flow", "PEM", "PPM", "rSize", "modType"],
    rows := [[.str "dry", .num 4, .num 4, .num 5, .str "rel"]] }

/-! ## Helper lemmas: characters and Python string operations -/

theorem chLower_none {c : Char} (h : lowerPairs.find? (fun p => p.1 = c) = none) :
    chLower c = c := by
  unfold chLower
  rw [h]
  rfl

theorem chLower_some {c : Char} {pr : Char × Char}
    (h : lowerPairs.find? (fun p => p.1 = c) = some pr) : chLower c = pr.2 := by
  unfold chLower
  rw [h]
  rfl

theorem chUpper_none {c : Char} (h : lowerPairs.find? (fun p => p.2 = c) = none) :
    chUpper c = c := by
  unfold chUpper
  rw [h]
  rfl

theorem chUpper_some {c : Char} {pr : Char × Char}
    (h : lowerPairs.find? (fun p => p.2 = c) = some pr) : chUpper c = pr.1 := by
  unfold chUpper
  rw [h]
  rfl

theorem chLower_idem (c : Char) : chLower (chLower c) = chLower c := by
  cases h : lowerPairs.find? (fun p => p.1 = c) with
  | none => rw [chLower_none h, chLower_none h]
  | some pr =>
    have hmem : pr ∈ lowerPairs := List.mem_of_find?_eq_some h
    rw [chLower_some h]
    exact chLower_none
      ((by decide : ∀ p ∈ lowerPairs, lowerPairs.find? (fun q => q.1 = p.2) = none) pr hmem)

theorem chUpper_idem (c : Char) : chUpper (chUpper c) = chUpper c := by
  cases h : lowerPairs.find? (fun p => p.2 = c) with
  | none => rw [chUpper_none h, chUpper_none h]
  | some pr =>
    have hmem : pr ∈ lowerPairs := List.mem_of_find?_eq_some h
    rw [chUpper_some h]
    exact chUpper_none
      ((by decide : ∀ p ∈ lowerPairs, lowerPairs.find? (fun q => q.2 = p.1) = none) pr hmem)

theorem chUpper_chLower (c : Char) : chUpper (chLower c) = chUpper c := by
  cases h : lowerPairs.find? (fun p => p.1 = c) with
  | none => rw [chLower_none h]
  | some pr =>
    have hmem : pr ∈ lowerPairs := List.mem_of_find?_eq_some h
    have hpc : pr.1 = c := by simpa using List.find?_some h
    rw [chLower_some h, ← hpc]
    exact (by decide : ∀ p ∈ lowerPairs, chUpper p.2 = chUpper p.1) pr hmem

theorem wsp_chLower (c : Char) : wsp (chLower c) = wsp c := by
  cases h : lowerPairs.find? (fun p => p.1 = c) with
  | none => rw [chLower_none h]
  | some pr =>
    have hmem : pr ∈ lowerPairs := List.mem_of_find?_eq_some h
    have hpc : pr.1 = c := by simpa using List.find?_some h
    rw [chLower_some h, ← hpc]
    exact (by decide : ∀ p ∈ lowerPairs, wsp p.2 = wsp p.1) pr hmem

theorem pyLower_idem (s : String) : pyLower (pyLower s) = pyLower s := by
  unfold pyLower
  apply congrArg
  simp only [List.map_map]
  exact List.map_congr_left (fun c _ => chLower_idem c)

theorem pyUpper_pyLower (s : String) : pyUpper (pyLower s) = pyUpper s := by
  unfold pyUpper pyLower
  apply congrArg
  simp only [List.map_map]
  exact List.map_congr_left (fun c _ => chUpper_chLower c)

theorem dropWhile_self (p : α → Bool) (l : List α) :
    (l.dropWhile p).dropWhile p = l.dropWhile p := by
  induction l with
  | nil => rfl
  | cons a t ih =>
    by_cases h : p a
    · simp [List.dropWhile_cons, h, ih]
    · simp [List.dropWhile_cons, h]

theorem head?_dropWhile_false (p : α → Bool) (l : List α) {x : α}
    (h : (l.dropWhile p).head? = some x) : p x = false := by
  have hh := List.head?_dropWhile_not p l
  rw [h] at hh
  exact hh

theorem dropWhile_of_head_false (p : α → Bool) (l : List α)
    (h : ∀ x, l.head? = some x → p x = false) : l.dropWhile p = l := by
  cases l with
  | nil => rfl
  | cons a t => simp [List.dropWhile_cons, h a rfl]

theorem getLast?_dropWhile (p : α → Bool) (l : List α) (h : l.dropWhile p ≠ []) :
    (l.dropWhile p).getLast? = l.getLast? := by
  induction l with
  | nil => simp at h
  | cons a t ih =>
    by_cases hp : p a
    · rw [List.dropWhile_cons_of_pos hp] at h ⊢
      cases t with
      | nil => simp at h
      | cons b t2 => rw [List.getLast?_cons_cons]; exact ih h
    · rw [List.dropWhile_cons_of_neg hp]

theorem stripChars_idem (l : List Char) : stripChars (stripChars l) = stripChars l := by
  unfold stripChars
  by_cases hBnil : (l.dropWhile wsp).reverse.dropWhile wsp = []
  · rw [hBnil]
    rfl
  · have h1 : ((l.dropWhile wsp).reverse.dropWhile wsp).reverse.dropWhile wsp
        = ((l.dropWhile wsp).reverse.dropWhile wsp).reverse := by
      apply dropWhile_of_head_false
      intro x hx
      rw [List.head?_reverse] at hx
      rw [getLast?_dropWhile wsp _ hBnil, List.getLast?_reverse] at hx
      exact head?_dropWhile_false wsp l hx
    rw [h1, List.reverse_reverse, dropWhile_self]

theorem stripChars_map_chLower (l : List Char) :
    stripChars (l.map chLower) = (stripChars l).map chLower := by
  have hw : (fun c => wsp (chLower c)) = wsp := funext wsp_chLower
  unfold stripChars
  rw [List.dropWhile_map, show wsp ∘ chLower = wsp from hw, ← List.map_reverse,
    List.dropWhile_map, show wsp ∘ chLower = wsp from hw, ← List.map_reverse]

theorem pyStrip_idem (s : String) : pyStrip (pyStrip s) = pyStrip s := by
  unfold pyStrip
  exact congrArg String.mk (stripChars_idem s.data)

theorem pyStrip_pyLower (s : String) : pyLower (pyStrip s) = pyStrip (pyLower s) := by
  unfold pyLower pyStrip
  exact congrArg String.mk (stripChars_map_chLower s.data).symm

theorem toNumericV_idem (v : Value) : toNumericV (toNumericV v) = toNumericV v := by
  cases v with
  | num n => rfl
  | null => rfl
  | str s =>
    unfold toNumericV
    cases h : s.toInt? <;> simp [h]

theorem normStrV_idem (v : Value) : normStrV (normStrV v) = normStrV v := by
  show Value.str (pyStrip (pyLower (pyStrip (pyLower (pyStr v))))) = normStrV v
  rw [pyStrip_pyLower, pyLower_idem, pyStrip_idem]
  rfl

/-! ## Helper lemmas: `dedupKeep` (drop_duplicates keep="first") -/

theorem dedupKeep_sublist {α β : Type} [DecidableEq β] (f : α → β) :
    ∀ (l : List α) (seen : List β), List.Sublist (dedupKeep f l seen) l := by
  intro l
  induction l with
  | nil => intro seen; simp [dedupKeep]
  | cons x xs ih =>
    intro seen
    unfold dedupKeep
    by_cases h : f x ∈ seen
    · rw [if_pos h]
      exact (ih seen).cons x
    · rw [if_neg h]
      exact (ih (f x :: seen)).cons₂ x

theorem mem_dedupKeep_not_seen {α β : Type} [DecidableEq β] (f : α → β) :
    ∀ (l : List α) (seen : List β) (r : α), r ∈ dedupKeep f l seen → f r ∉ seen := by
  intro l
  induction l with
  | nil => intro seen r hr; simp [dedupKeep] at hr
  | cons x xs ih =>
    intro seen r hr
    unfold dedupKeep at hr
    by_cases h : f x ∈ seen
    · rw [if_pos h] at hr
      exact ih seen r hr
    · rw [if_neg h] at hr
      rcases List.mem_cons.mp hr with heq | hr2
      · subst heq
        exact h
      · intro hseen
        exact ih (f x :: seen) r hr2 (List.mem_cons_of_mem _ hseen)

theorem dedupKeep_find {α β : Type} [DecidableEq β] (f : α → β) :
    ∀ (l : List α) (seen : List β) (r : α), r ∈ dedupKeep f l seen →
      l.find? (fun x => decide (f x = f r)) = some r := by
  intro l
  induction l with
  | nil => intro seen r hr; simp [dedupKeep] at hr
  | cons x xs ih =>
    intro seen r hr
    unfold dedupKeep at hr
    by_cases h : f x ∈ seen
    · rw [if_pos h] at hr
      have hne : ¬(decide (f x = f r)) = true := by
        simp only [decide_eq_true_eq]
        intro he
        exact mem_dedupKeep_not_seen f xs seen r hr (he ▸ h)
      have hstep : List.find? (fun y => decide (f y = f r)) (x :: xs)
          = List.find? (fun y => decide (f y = f r)) xs := List.find?_cons_of_neg xs hne
      rw [hstep]
      exact ih seen r hr
    · rw [if_neg h] at hr
      rcases List.mem_cons.mp hr with heq | hr2
      · subst heq
        exact List.find?_cons_of_pos xs (by simp)
      · have hnotin : f r ∉ f x :: seen := mem_dedupKeep_not_seen f xs (f x :: seen) r hr2
        have hne : ¬(decide (f x = f r)) = true := by
          simp only [decide_eq_true_eq]
          intro he
          exact hnotin (he ▸ List.mem_cons_self _ _)
        have hstep : List.find? (fun y => decide (f y = f r)) (x :: xs)
            = List.find? (fun y => decide (f y = f r)) xs := List.find?_cons_of_neg xs hne
        rw [hstep]
        exact ih (f x :: seen) r hr2

theorem dedupKeep_map_nodup {α β : Type} [DecidableEq β] (f : α → β) :
    ∀ (l : List α) (seen : List β), ((dedupKeep f l seen).map f).Nodup := by
  intro l
  induction l with
  | nil => intro seen; simp [dedupKeep]
  | cons x xs ih =>
    intro seen
    unfold dedupKeep
    by_cases h : f x ∈ seen
    · rw [if_pos h]
      exact ih seen
    · rw [if_neg h]
      simp only [List.map_cons, List.nodup_cons]
      refine ⟨fun hmem => ?_, ih (f x :: seen)⟩
      rcases List.mem_map.mp hmem with ⟨r, hr, hfr⟩
      exact mem_dedupKeep_not_seen f xs (f x :: seen) r hr
        (by rw [hfr]; exact List.mem_cons_self _ _)

theorem dedupKeep_covers {α β : Type} [DecidableEq β] (f : α → β) :
    ∀ (l : List α) (seen : List β) (x : α), x ∈ l → f x ∉ seen →
      ∃ r ∈ dedupKeep f l seen, f r = f x := by
  intro l
  induction l with
  | nil => intro seen x hx; simp at hx
  | cons y ys ih =>
    intro seen x hx hnot
    unfold dedupKeep
    by_cases h : f y ∈ seen
    · rw [if_pos h]
      rcases List.mem_cons.mp hx with heq | hx2
      · exact absurd (heq ▸ h) hnot
      · exact ih seen x hx2 hnot
    · rw [if_neg h]
      rcases List.mem_cons.mp hx with heq | hx2
      · subst heq
        exact ⟨x, List.mem_cons_self _ _, rfl⟩
      · by_cases hfe : f x = f y
        · exact ⟨y, List.mem_cons_self _ _, hfe.symm⟩
        · have hnot2 : f x ∉ f y :: seen := by
            simp only [List.mem_cons]
            rintro (he | hs)
            · exact hfe he
            · exact hnot hs
          rcases ih (f y :: seen) x hx2 hnot2 with ⟨r, hr, hfr⟩
          exact ⟨r, List.mem_cons_of_mem _ hr, hfr⟩

/-! ## Helper lemmas: keep-first dedup of a descending-sorted permutation -/

theorem find?_eq_some_split {α : Type} (p : α → Bool) (l : List α) (a : α)
    (h : l.find? p = some a) :
    ∃ l1 l2, l = l1 ++ a :: l2 ∧ ∀ x ∈ l1, p x = false := by
  induction l with
  | nil => simp at h
  | cons x xs ih =>
    by_cases hx : p x
    · rw [List.find?_cons_of_pos _ hx] at h
      cases h
      exact ⟨[], xs, rfl, by simp⟩
    · rw [List.find?_cons_of_neg _ hx] at h
      rcases ih h with ⟨l1, l2, heq, hfail⟩
      refine ⟨x :: l1, l2, by rw [heq]; rfl, ?_⟩
      intro y hy
      rcases List.mem_cons.mp hy with rfl | hy2
      · exact Bool.of_not_eq_true hx
      · exact hfail y hy2

/-- Keep-first dedup of a descending-sorted permutation `m` of `l` keeps, in
each group, a row whose key value is maximal over the group — for every
admissible sorted order, not just a particular one. -/
theorem sortedDedup_max {α β γ : Type} [DecidableEq β] [LinearOrder γ]
    (key : α → β) (w : α → γ) (l m : List α) (hp : m.Perm l)
    (hsorted : List.Sorted (descRel w) m) (r : α)
    (hr : r ∈ dedupKeep key m [])
    (s : α) (hs : s ∈ l) (hkey : key s = key r) : w s ≤ w r := by
  have hfind := dedupKeep_find key m [] r hr
  rcases find?_eq_some_split _ _ _ hfind with ⟨l1, l2, heq, hfail⟩
  have hs2 : s ∈ m := hp.mem_iff.mpr hs
  rw [heq] at hs2 hsorted
  rcases List.mem_append.mp hs2 with h1 | h2
  · have hf := hfail s h1
    rw [hkey] at hf
    simp at hf
  · rcases List.mem_cons.mp h2 with heq2 | h3
    · rw [heq2]
    · have hpw := (List.pairwise_append.mp hsorted).2.1
      exact (List.pairwise_cons.mp hpw).1 s h3

/-! ## Claim C1: the relative size index computation -/

/-- C1, counterexample.  The claim says any code difference outside 0..4 is
flagged as invalid input (fails loudly).  In the source, `rsize_from` has a
bare trailing `else 1`: the out-of-range differences 5 (codes 7,2) and −3
(codes 2,5) are silently mapped to the same value 1 that the legitimate
difference 4 produces — no failure, no flagging. -/
theorem C1_counterexample :
    rsize_from 7 2 = 1 ∧ rsize_from 2 5 = 1 ∧ rsize_from 6 2 = 1 := by
  decide

/-- C1, amended.  `rsize_from` maps a difference d in 0..4 to 5 − d (i.e.
5,4,3,2,1 for d = 0,1,2,3,4), and silently maps every other difference to 1
rather than flagging it. -/
theorem C1_rsize_piecewise (ppm pem : Int) :
    (0 ≤ ppm - pem ∧ ppm - pem ≤ 4 → rsize_from ppm pem = 5 - (ppm - pem)) ∧
    (¬(0 ≤ ppm - pem ∧ ppm - pem ≤ 4) → rsize_from ppm pem = 1) := by
  unfold rsize_from
  simp only []
  constructor
  · rintro ⟨h0, h4⟩
    split_ifs with h1 h2 h3 h5 <;> omega
  · intro h
    split_ifs with h1 h2 h3 h5 <;> omega

/-- C1, witness: the amended theorem applied at codes (5,2) (difference 3,
index 2) and (9,2) (difference 7, silently 1). -/
theorem C1_rsize_piecewise_witness : rsize_from 5 2 = 2 ∧ rsize_from 9 2 = 1 := by
  constructor
  · have h := (C1_rsize_piecewise 5 2).1 (by decide)
    norm_num at h
    exact h
  · exact (C1_rsize_piecewise 9 2).2 (by decide)

/-! ## Claim C4: the deduplication stage -/

/-- C4, counterexample.  The claim says the kept row of a tied group is the
first in input order (a stable descending sort followed by keep-first).  The
source sorts with `sort_values(by="rSize", ascending=False)` and the default
`kind="quicksort"`: the call's contract fixes only a permutation of the rows
ordered descending in `rSize`, not the relative order of tied rows (quicksort
is not stable, and pandas produces its descending single-column output by
reversing an ascending indexer, so not even a stable kind would yield input
order for ties).  On the two-row tied table below, both orders of the rows
are admissible sort outputs, and keep-first retains a different row under
each: under the second admissible order the kept row is the second input row,
not the first, so the input-order tie-break is not a guarantee the program
provides. -/
theorem C4_counterexample :
    isDescSortOf tTieDemo
      [[Value.str "a", .num 5, .str "g1"], [.str "a", .num 5, .str "g2"]]
    ∧ isDescSortOf tTieDemo
      [[Value.str "a", .num 5, .str "g2"], [.str "a", .num 5, .str "g1"]]
    ∧ (dedupStageOn tTieDemo true
        [[Value.str "a", .num 5, .str "g1"], [.str "a", .num 5, .str "g2"]]).rows
      = [[Value.str "a", .num 5, .str "g1"]]
    ∧ (dedupStageOn tTieDemo true
        [[Value.str "a", .num 5, .str "g2"], [.str "a", .num 5, .str "g1"]]).rows
      = [[Value.str "a", .num 5, .str "g2"]]
    ∧ tTieDemo.rows.head? = some [Value.str "a", .num 5, .str "g1"]
    ∧ ([Value.str "a", .num 5, .str "g2"] : List Value)
      ≠ [Value.str "a", .num 5, .str "g1"] := by
  refine ⟨⟨by decide, by decide⟩, ⟨by decide, by decide⟩, by decide, by decide,
    by decide, by decide⟩

/-- C4, amended.  The order-independent guarantees of the single-rSize
deduplication hold for EVERY admissible output order of the descending sort
(`isDescSortOf`): with an `rSize` column present the stage (i) leaves at most
one row per distinct group-key tuple (the fixed column list restricted to
columns present in the table), (ii) never increases the row count, (iii)
returns only input rows, (iv) keeps within each group a row of maximal
`rSize` (nulls ranked below every number), and (v) covers every input group.
The pipeline's `dedupStage` realizes one admissible order.  When `rSize` is
absent the stage is a no-op for any flag value and any order.  Which of
several tied maximal-`rSize` rows of a group is kept is NOT part of the
source's contract: it depends on the admissible order, as the counterexample
shows. -/
theorem C4_dedup :
    (∀ (t : Table) (l : List (List Value)), t.hasCol "rSize" = true →
      isDescSortOf t l →
      ((dedupStageOn t true l).rows.map (groupKey t)).Nodup
      ∧ (dedupStageOn t true l).rows.length ≤ t.rows.length
      ∧ (∀ r ∈ (dedupStageOn t true l).rows, r ∈ t.rows)
      ∧ (∀ r ∈ (dedupStageOn t true l).rows, ∀ s ∈ t.rows,
          groupKey t s = groupKey t r → rSizeKey t s ≤ rSizeKey t r)
      ∧ (∀ s ∈ t.rows, ∃ r ∈ (dedupStageOn t true l).rows, groupKey t r = groupKey t s))
    ∧ (∀ (t : Table) (b : Bool),
        isDescSortOf t (List.insertionSort (descRel (rSizeKey t)) t.rows)
        ∧ dedupStage t b
            = dedupStageOn t b (List.insertionSort (descRel (rSizeKey t)) t.rows))
    ∧ (∀ (t : Table) (l : List (List Value)) (b : Bool), t.hasCol "rSize" = false →
        dedupStageOn t b l = t ∧ dedupStage t b = t) := by
  refine ⟨?_, ?_, ?_⟩
  · intro t l h hl
    rcases hl with ⟨hperm, hsorted⟩
    by_cases hemp : t.rows.isEmpty
    · have hout : dedupStageOn t true l = t := by
        unfold dedupStageOn
        rw [h, hemp]
        rfl
      have hnil : t.rows = [] := List.isEmpty_iff.mp hemp
      rw [hout, hnil]
      simp
    · have hout : (dedupStageOn t true l).rows = dedupKeep (groupKey t) l [] := by
        unfold dedupStageOn
        rw [h, eq_false_of_ne_true (fun hc => hemp hc)]
        rfl
      rw [hout]
      refine ⟨dedupKeep_map_nodup _ _ _, ?_, ?_, ?_, ?_⟩
      · calc (dedupKeep (groupKey t) l []).length
            ≤ l.length := (dedupKeep_sublist _ _ _).length_le
          _ = t.rows.length := hperm.length_eq
      · intro r hr
        exact hperm.mem_iff.mp ((dedupKeep_sublist _ _ _).subset hr)
      · intro r hr s hs hkey
        exact sortedDedup_max (groupKey t) (rSizeKey t) t.rows l hperm hsorted r hr s hs hkey
      · intro s hs
        exact dedupKeep_covers (groupKey t) l [] s (hperm.mem_iff.mpr hs) (by simp)
  · intro t b
    exact ⟨⟨List.perm_insertionSort _ _, List.sorted_insertionSort _ _⟩, rfl⟩
  · intro t l b h
    constructor
    · unfold dedupStageOn
      rw [h]
      simp
    · unfold dedupStage
      rw [h]
      simp

/-- C4, witness: the order-generic characterization applied to a concrete
four-row table at a concrete admissible order of its rows, and the no-op
applied to a table without `rSize`. -/
theorem C4_dedup_witness :
    (dedupStageOn tDedupDemo true
      [[Value.str "a", .num 5], [.str "a", .num 5], [.str "a", .num 2], [.str "b", .num 1]]
      ).rows.length ≤ tDedupDemo.rows.length
    ∧ dedupStage tNoRSize true = tNoRSize :=
  ⟨(C4_dedup.1 tDedupDemo
      [[Value.str "a", .num 5], [.str "a", .num 5], [.str "a", .num 2], [.str "b", .num 1]]
      (by decide) ⟨by decide, by decide⟩).2.1,
   (C4_dedup.2.2 tNoRSize [] true (by decide)).2⟩

/-! ## Claim C7: the scenario runner -/

theorem map_fst_filterMap_sublist {α β : Type} (f : α → Option (α × β))
    (hf : ∀ c p, f c = some p → p.1 = c) (l : List α) :
    List.Sublist ((l.filterMap f).map Prod.fst) l := by
  induction l with
  | nil => simp
  | cons c cs ih =>
    rw [List.filterMap_cons]
    cases hc : f c with
    | none => exact ih.cons c
    | some p =>
      rw [List.map_cons, hf c p hc]
      exact ih.cons₂ c

/-- C7.  The scenario runner returns exactly the (criteria, result) pairs of
the scenarios whose pipeline returned (did not raise) a non-empty table: it
equals `filterMap` of the per-scenario outcome over the criteria list (so a
raising scenario is skipped while all later scenarios are still evaluated,
an empty result is excluded, and input order and multiplicity are preserved);
the first components form a sublist of the input list, and every returned
pair is a successful non-empty outcome. -/
theorem C7_runner (pipe : Criteria → Except String Table) (l : List Criteria) :
    runScenarioFilters pipe l = l.filterMap (fun crit =>
      match pipe crit with
      | .error _ => none
      | .ok survivors => if survivors.rows.isEmpty then none else some (crit, survivors))
    ∧ List.Sublist ((runScenarioFilters pipe l).map Prod.fst) l
    ∧ (∀ pr ∈ runScenarioFilters pipe l, pipe pr.1 = .ok pr.2 ∧ pr.2.rows ≠ []) := by
  have hgo : ∀ (m : List Criteria) (acc : List (Criteria × Table)),
      m.foldl (fun results crit =>
        match pipe crit with
        | .error _ => results
        | .ok survivors =>
          if survivors.rows.isEmpty then results else results ++ [(crit, survivors)]) acc
      = acc ++ m.filterMap (fun crit =>
          match pipe crit with
          | .error _ => none
          | .ok survivors => if survivors.rows.isEmpty then none else some (crit, survivors)) := by
    intro m
    induction m with
    | nil => intro acc; simp
    | cons c cs ih =>
      intro acc
      rw [List.foldl_cons, List.filterMap_cons]
      cases hc : pipe c with
      | error e =>
        simp only [hc]
        rw [ih]
      | ok t =>
        simp only [hc]
        by_cases ht : t.rows.isEmpty
        · rw [if_pos ht, if_pos ht, ih]
        · rw [if_neg ht, if_neg ht, ih, List.append_assoc]
          rfl
  have hspec : runScenarioFilters pipe l = l.filterMap (fun crit =>
      match pipe crit with
      | .error _ => none
      | .ok survivors => if survivors.rows.isEmpty then none else some (crit, survivors)) := by
    unfold runScenarioFilters
    rw [hgo l []]
    rfl
  refine ⟨hspec, ?_, ?_⟩
  · rw [hspec]
    apply map_fst_filterMap_sublist
    intro c pr hc
    rcases hpc : pipe c with e | t
    · simp [hpc] at hc
    · simp only [hpc] at hc
      by_cases ht : t.rows.isEmpty
      · simp [ht] at hc
      · simp [ht] at hc
        rw [← hc]
  · intro pr hpr
    rw [hspec] at hpr
    rcases List.mem_filterMap.mp hpr with ⟨c, _, hc⟩
    rcases hpc : pipe c with e | t
    · simp [hpc] at hc
    · simp only [hpc] at hc
      by_cases ht : t.rows.isEmpty
      · simp [ht] at hc
      · simp [ht] at hc
        rw [← hc]
        exact ⟨hpc, fun hn => ht (List.isEmpty_iff.mpr hn)⟩

/-! ## Claim C5: the region filter -/

theorem memberOfStrs_eq_decide (v : Value) (ids : List String) :
    memberOfStrs v ids = decide (∃ s ∈ ids, v = Value.str s) := by
  cases hb : memberOfStrs v ids with
  | false =>
    unfold memberOfStrs at hb
    rw [List.any_eq_false] at hb
    refine (decide_eq_false ?_).symm
    rintro ⟨s, hs, hv⟩
    exact hb s hs (by simp [hv])
  | true =>
    unfold memberOfStrs at hb
    rw [List.any_eq_true] at hb
    rcases hb with ⟨s, hs, hp⟩
    refine (decide_eq_true ?_).symm
    exact ⟨s, hs, by simpa using hp⟩

/-- C5.  With both region-id columns present: both id sets non-empty and mode
"and" keeps exactly the rows in both memberships; both non-empty and mode
"or" keeps exactly the rows in at least one; both sets empty makes the stage
a no-op. -/
theorem C5_region (t : Table) (lk lwd : List String) (mode : String)
    (hlk : t.hasCol "LKGebietID" = true) (hlwd : t.hasCol "LWDGebietID" = true) :
    (lk ≠ [] → lwd ≠ [] → mode = "and" →
      (regionStage t lk lwd mode).1.rows = t.rows.filter (fun r =>
        decide ((∃ s ∈ lk, t.get r "LKGebietID" = Value.str s)
          ∧ (∃ s ∈ lwd, t.get r "LWDGebietID" = Value.str s))))
    ∧ (lk ≠ [] → lwd ≠ [] → mode = "or" →
      (regionStage t lk lwd mode).1.rows = t.rows.filter (fun r =>
        decide ((∃ s ∈ lk, t.get r "LKGebietID" = Value.str s)
          ∨ (∃ s ∈ lwd, t.get r "LWDGebietID" = Value.str s))))
    ∧ (lk = [] → lwd = [] → (regionStage t lk lwd mode).1 = t) := by
  refine ⟨?_, ?_, ?_⟩
  · intro hk hw hmode
    have h1 : lk.isEmpty = false := by simpa using hk
    have h2 : lwd.isEmpty = false := by simpa using hw
    subst hmode
    unfold regionStage
    simp only [h1, h2, hlk, hlwd, Bool.not_false, Bool.and_self, Bool.true_and,
      Bool.and_true, Bool.or_self, if_true, if_pos rfl, Bool.true_or]
    unfold Table.filterRows
    refine congrArg (fun z => z) ?_
    apply List.filter_congr
    intro r _
    rw [memberOfStrs_eq_decide, memberOfStrs_eq_decide]
    simp
  · intro hk hw hmode
    have h1 : lk.isEmpty = false := by simpa using hk
    have h2 : lwd.isEmpty = false := by simpa using hw
    subst hmode
    unfold regionStage
    simp only [h1, h2, hlk, hlwd, Bool.not_false, Bool.and_self, Bool.true_and,
      Bool.and_true, Bool.or_self, if_true, Bool.true_or]
    unfold Table.filterRows
    apply List.filter_congr
    intro r _
    rw [if_neg (by decide : ¬("or" : String) = "and")]
    rw [memberOfStrs_eq_decide, memberOfStrs_eq_decide]
    simp
  · intro hk hw
    subst hk
    subst hw
    unfold regionStage
    simp

/-- C5, witness: the "and" case applied to a concrete table (one row has
LKGebietID 701 and LWDGebietID A). -/
theorem C5_region_witness :
    (regionStage tRegionDemo ["701"] ["A"] "and").1.rows
      = tRegionDemo.rows.filter (fun r =>
          decide ((∃ s ∈ ["701"], tRegionDemo.get r "LKGebietID" = Value.str s)
            ∧ (∃ s ∈ ["A"], tRegionDemo.get r "LWDGebietID" = Value.str s))) :=
  (C5_region tRegionDemo ["701"] ["A"] "and" (by decide) (by decide)).1
    (by decide) (by decide) rfl

/-! ## Claim C6: empty legend selection -/

theorem listMaxI_mem : ∀ (l : List Int) (n : Int), listMaxI l = some n → n ∈ l := by
  intro l
  induction l with
  | nil => intro n h; simp [listMaxI] at h
  | cons a as ih =>
    intro n h
    unfold listMaxI at h
    cases hm : listMaxI as with
    | none =>
      rw [hm] at h
      cases h
      exact List.mem_cons_self _ _
    | some m =>
      rw [hm] at h
      cases h
      rcases max_choice a m with hc | hc
      · rw [hc]
        exact List.mem_cons_self _ _
      · rw [hc]
        exact List.mem_cons_of_mem _ (ih m hm)

theorem listMaxI_le : ∀ (l : List Int) (n : Int), listMaxI l = some n → ∀ m ∈ l, m ≤ n := by
  intro l
  induction l with
  | nil => intro n _ m hm; simp at hm
  | cons a as ih =>
    intro n h m hm
    unfold listMaxI at h
    cases hx : listMaxI as with
    | none =>
      rw [hx] at h
      cases h
      rcases List.mem_cons.mp hm with heq | hm2
      · rw [heq]
      · have : as = [] := by
          cases as with
          | nil => rfl
          | cons b bs =>
            unfold listMaxI at hx
            cases h2 : listMaxI bs <;> rw [h2] at hx <;> simp at hx
        rw [this] at hm2
        simp at hm2
    | some k =>
      rw [hx] at h
      cases h
      rcases List.mem_cons.mp hm with heq | hm2
      · rw [heq]
        exact le_max_left a k
      · exact le_trans (ih k hx m hm2) (le_max_right a k)

theorem listMaxI_eq_none : ∀ (l : List Int), listMaxI l = none → l = [] := by
  intro l h
  cases l with
  | nil => rfl
  | cons a as =>
    unfold listMaxI at h
    cases h2 : listMaxI as <;> rw [h2] at h <;> simp at h

/-- `_max_size_for_pots` on an already-normalized legend: its internal
re-normalization is the identity, and the empty-selection and empty-legend
cases coincide with an empty maximum, giving one uniform description. -/
theorem maxSizeForPots_normalized (legend : List LegendRow) (pots : List String) :
    maxSizeForPots (legend.map LegendRow.normalize) pots
      = pots.map (fun p =>
          (p, listMaxI (((legend.map LegendRow.normalize).filter
            (fun r => r.pot == Value.str p)).filterMap (fun r => numOf r.sizePot)))) := by
  unfold maxSizeForPots
  by_cases hleg : (legend.map LegendRow.normalize).isEmpty
  · rw [if_pos hleg]
    have hnil : legend.map LegendRow.normalize = [] := List.isEmpty_iff.mp hleg
    apply List.map_congr_left
    intro p _
    rw [hnil]
    rfl
  · rw [if_neg hleg]
    have htmp : (legend.map LegendRow.normalize).map (fun r =>
        { r with pot := normStrV r.pot, sizePot := toNumericV r.sizePot })
        = legend.map LegendRow.normalize := by
      rw [List.map_map]
      apply List.map_congr_left
      intro r0 _
      show { LegendRow.normalize r0 with
        pot := normStrV (LegendRow.normalize r0).pot
        sizePot := toNumericV (LegendRow.normalize r0).sizePot } = LegendRow.normalize r0
      unfold LegendRow.normalize
      simp [normStrV_idem, toNumericV_idem]
    rw [htmp]
    apply List.map_congr_left
    intro p _
    by_cases hsel : ((legend.map LegendRow.normalize).filter
        (fun r => r.pot == Value.str p)).isEmpty
    · rw [if_pos hsel]
      have : (legend.map LegendRow.normalize).filter (fun r => r.pot == Value.str p) = [] :=
        List.isEmpty_iff.mp hsel
      rw [this]
      rfl
    · rw [if_neg hsel]

/-- C6.  Whenever the normalized legend selection for the requested
(potentials, reference size class) pair is empty, the legend stage yields an
empty table (without raising — the model is total) after logging exactly the
diagnostic carrying, per requested potential, the maximum size class available
for it in the normalized matrix; the diagnostic entry `some n` is a true
maximum over the matrix rows of that potential, and `none` means the potential
has no row with a numeric size class (in particular, it is not in the matrix). -/
theorem C6_legend_empty_selection (t : Table) (rawPots : List String) (sizeRef : Int)
    (legend : List LegendRow)
    (hsel : legSelOf legend (normalizePots rawPots) sizeRef = []) :
    (legendStage t rawPots sizeRef legend).1.rows = []
    ∧ (legendStage t rawPots sizeRef legend).2
        = [LogEvent.legendEmptyDiag
            (maxSizeForPots (legend.map LegendRow.normalize) (normalizePots rawPots))]
    ∧ (∀ p n, (p, some n) ∈ maxSizeForPots (legend.map LegendRow.normalize)
          (normalizePots rawPots) →
        (∃ r ∈ legend.map LegendRow.normalize, r.pot = Value.str p ∧ r.sizePot = Value.num n)
        ∧ (∀ r ∈ legend.map LegendRow.normalize, r.pot = Value.str p →
            ∀ m, r.sizePot = Value.num m → m ≤ n))
    ∧ (∀ p, (p, none) ∈ maxSizeForPots (legend.map LegendRow.normalize)
          (normalizePots rawPots) →
        ∀ r ∈ legend.map LegendRow.normalize, r.pot = Value.str p →
          numOf r.sizePot = none) := by
  have hstage : legendStage t rawPots sizeRef legend
      = ((coerceJoinCols t).emptyLike,
          [LogEvent.legendEmptyDiag
            (maxSizeForPots (legend.map LegendRow.normalize) (normalizePots rawPots))]) := by
    simp only [legendStage, hsel, List.isEmpty_nil, if_true]
  refine ⟨by rw [hstage]; rfl, by rw [hstage], ?_, ?_⟩
  · intro p n hmem
    rw [maxSizeForPots_normalized] at hmem
    rcases List.mem_map.mp hmem with ⟨p0, _, hp0⟩
    have hp : p0 = p := congrArg Prod.fst hp0
    subst hp
    have hmax : listMaxI (((legend.map LegendRow.normalize).filter
        (fun r => r.pot == Value.str p0)).filterMap (fun r => numOf r.sizePot)) = some n :=
      congrArg Prod.snd hp0
    constructor
    · have hn := listMaxI_mem _ n hmax
      rcases List.mem_filterMap.mp hn with ⟨r, hrf, hnum⟩
      have hrl := List.mem_filter.mp hrf
      refine ⟨r, hrl.1, by simpa using hrl.2, ?_⟩
      cases hv : r.sizePot <;> rw [hv] at hnum <;> simp [numOf] at hnum
      rw [hnum]
    · intro r hr hpot m hm
      apply listMaxI_le _ n hmax
      apply List.mem_filterMap.mpr
      refine ⟨r, List.mem_filter.mpr ⟨hr, by simp [hpot]⟩, by simp [hm, numOf]⟩
  · intro p hmem r hr hpot
    rw [maxSizeForPots_normalized] at hmem
    rcases List.mem_map.mp hmem with ⟨p0, _, hp0⟩
    have hp : p0 = p := congrArg Prod.fst hp0
    subst hp
    have hmax : listMaxI (((legend.map LegendRow.normalize).filter
        (fun r => r.pot == Value.str p0)).filterMap (fun r => numOf r.sizePot)) = none :=
      congrArg Prod.snd hp0
    have hnil := listMaxI_eq_none _ hmax
    have := List.filterMap_eq_nil_iff.mp hnil
    exact this r (List.mem_filter.mpr ⟨hr, by simp [hpot]⟩)

/-- C6, witness: requesting ("high", size 9) against the built-in matrix, on a
concrete table: the output is empty and the diagnostic records the maximum
size class 4 available for "high". -/
theorem C6_witness :
    (legendStage tJoinDemo ["high"] 9 avaPotMatrix).1.rows = []
    ∧ (legendStage tJoinDemo ["high"] 9 avaPotMatrix).2
        = [LogEvent.legendEmptyDiag
            (maxSizeForPots (avaPotMatrix.map LegendRow.normalize) (normalizePots ["high"]))] :=
  ⟨(C6_legend_empty_selection tJoinDemo ["high"] 9 avaPotMatrix (by decide)).1,
   (C6_legend_empty_selection tJoinDemo ["high"] 9 avaPotMatrix (by decide)).2.1⟩

/-! ## Claim C8: built-in matrix invariants and the size-1 consequence -/

/-- `dedupStage` is the identity on a table with no rows. -/
theorem dedupStage_empty (t : Table) (b : Bool) (h : t.rows = []) : dedupStage t b = t := by
  unfold dedupStage
  rw [h]
  simp

/-- C8.  Every row of the built-in matrix has size potential in {2,3,4,5},
code difference in 0..4 and `rSize = 5 − (PPM − PEM)`; no row has size
potential 1, so for reference size class 1 the legend selection is empty for
every potential list, the legend stage takes the empty-selection branch
(returning the empty table and logging the diagnostic — in particular the
size-1 rel-only special case is never reached, as that branch logs nothing
and returns a stamped table), and the whole pipeline returns an empty table
for any scenario requesting size class 1 against the built-in matrix. -/
theorem C8_matrix_invariants :
    (∀ r ∈ avaPotMatrix, matrixRowOk r = true)
    ∧ (∀ r ∈ avaPotMatrix, r.sizePot ≠ Value.num 1)
    ∧ (∀ rawPots : List String, legSelOf avaPotMatrix (normalizePots rawPots) 1 = [])
    ∧ (∀ (gdf : Table) (rawPots : List String),
        (legendStage gdf rawPots 1 avaPotMatrix).1 = (coerceJoinCols gdf).emptyLike
        ∧ (legendStage gdf rawPots 1 avaPotMatrix).2
            = [LogEvent.legendEmptyDiag (maxSizeForPots
                (avaPotMatrix.map LegendRow.normalize) (normalizePots rawPots))])
    ∧ (∀ (gdf : Table) (crit : Criteria), crit.avaDistPot ≠ [] → crit.avaSizePot = some 1 →
        (filterScenarioResults gdf crit avaPotMatrix).1.rows = []) := by
  have hsel : ∀ rawPots : List String,
      legSelOf avaPotMatrix (normalizePots rawPots) 1 = [] := by
    intro rawPots
    unfold legSelOf
    rw [List.filter_eq_nil_iff]
    intro r hr
    have hno : ∀ x ∈ avaPotMatrix.map LegendRow.normalize,
        (x.sizePot == Value.num 1) = false := by decide
    simp [hno r hr]
  have hstage : ∀ (gdf : Table) (rawPots : List String),
      legendStage gdf rawPots 1 avaPotMatrix
        = ((coerceJoinCols gdf).emptyLike,
            [LogEvent.legendEmptyDiag (maxSizeForPots
              (avaPotMatrix.map LegendRow.normalize) (normalizePots rawPots))]) := by
    intro gdf rawPots
    simp only [legendStage, hsel rawPots, List.isEmpty_nil, if_true]
  refine ⟨by decide, by decide, hsel, fun gdf rawPots => ⟨by rw [hstage], by rw [hstage]⟩, ?_⟩
  intro gdf crit hpots hsize
  rcases hpd : crit.avaDistPot with _ | ⟨p0, ps⟩
  · exact absurd hpd hpots
  · unfold filterScenarioResults
    rw [hpd, hsize]
    by_cases h1 : (regionStage (if guardOK gdf = true then gdf else normalizeAvaCols gdf)
        crit.LKRegionID crit.LwdRegionID
        (pyLower (pyStrip (if crit.regionMode = "" then "or" else crit.regionMode)))).1.rows.isEmpty
    · rw [if_pos h1]
      exact List.isEmpty_iff.mp h1
    · rw [if_neg h1]
      set g1 := (regionStage (if guardOK gdf = true then gdf else normalizeAvaCols gdf)
        crit.LKRegionID crit.LwdRegionID
        (pyLower (pyStrip (if crit.regionMode = "" then "or" else crit.regionMode)))).1 with hg1
      by_cases h2 : (elevMaxStage (elevMinStage (flowStage (sectorStage
          (subCStage g1 crit.subCs).1 crit.sectors).1 crit.flows).1 crit.elevMin).1
          crit.elevMax).1.rows.isEmpty
      · rw [if_pos h2]
        exact List.isEmpty_iff.mp h2
      · rw [if_neg h2]
        have hlegend := hstage (elevMaxStage (elevMinStage (flowStage (sectorStage
          (subCStage g1 crit.subCs).1 crit.sectors).1 crit.flows).1 crit.elevMin).1
          crit.elevMax).1 (p0 :: ps)
        dsimp only
        rw [hlegend]
        rw [dedupStage_empty _ _ rfl]
        rfl

/-- C8, witness: the pipeline part applied to a concrete one-row table and a
scenario requesting ("high", size 1). -/
theorem C8_matrix_invariants_witness :
    (filterScenarioResults tPipelineDemo critSizeOne avaPotMatrix).1.rows = [] :=
  C8_matrix_invariants.2.2.2.2 tPipelineDemo critSizeOne (by decide) rfl

/-! ## Claim C9: mutation of the caller's table -/

/-- C9, counterexample.  The claim says `normalizeAvaCols` has no side effect
beyond the returned table.  On a table with a `flow` column and no PPM/PEM
column the rename map is empty, so no copy is made and the flow coercion
writes through to the caller's frame: the caller's table is changed (its flow
cell "DRY" becomes "dry"). -/
theorem C9_counterexample :
    (normalizeAvaColsRun tFlowOnly).1 ≠ tFlowOnly
    ∧ (normalizeAvaColsRun tFlowOnly).1
        = { cols := ["flow"], rows := [[Value.str "dry"]] } := by
  decide

theorem pyFrame_foldl_invariant (fns : List (String × (Value → Value))) :
    ∀ st : PyFrame,
      (st.aliased = true → st.caller = st.cur →
        (fns.foldl (fun s p => s.mapCol p.1 p.2) st).aliased = true
        ∧ (fns.foldl (fun s p => s.mapCol p.1 p.2) st).caller
            = (fns.foldl (fun s p => s.mapCol p.1 p.2) st).cur)
      ∧ (st.aliased = false →
        (fns.foldl (fun s p => s.mapCol p.1 p.2) st).aliased = false
        ∧ (fns.foldl (fun s p => s.mapCol p.1 p.2) st).caller = st.caller) := by
  induction fns with
  | nil => intro st; exact ⟨fun h1 h2 => ⟨h1, h2⟩, fun h1 => ⟨h1, rfl⟩⟩
  | cons p fns ih =>
    intro st
    constructor
    · intro h1 h2
      rw [List.foldl_cons]
      refine (ih (st.mapCol p.1 p.2)).1 ?_ ?_
      · unfold PyFrame.mapCol
        exact h1
      · unfold PyFrame.mapCol
        rw [h1]
        simp
    · intro h1
      rw [List.foldl_cons]
      have hstep := (ih (st.mapCol p.1 p.2)).2 (by unfold PyFrame.mapCol; exact h1)
      refine ⟨hstep.1, hstep.2.trans ?_⟩
      unfold PyFrame.mapCol
      rw [h1]
      simp

/-- C9, amended.  `normalizeAvaCols` leaves the caller's table unchanged
exactly when the table has a PPM/PEM-cased column (the rename allocates a
copy); otherwise every column coercion writes through the alias and the
caller's table ends up equal to the returned (normalized) table — the
normalizer, and hence the scenario pipeline that calls it on the shared
table, is not mutation-free. -/
theorem C9_normalize_aliasing (t : Table) :
    (t.cols.any ppmPemName = true → (normalizeAvaColsRun t).1 = t)
    ∧ (t.cols.any ppmPemName = false →
        (normalizeAvaColsRun t).1 = (normalizeAvaColsRun t).2) := by
  constructor
  · intro h
    unfold normalizeAvaColsRun
    rw [if_pos h]
    exact (pyFrame_foldl_invariant normalizeColFns
      { caller := t, cur := t.renameCols renameUpMap, aliased := false }).2 rfl |>.2
  · intro h
    unfold normalizeAvaColsRun
    rw [if_neg (by simp [h])]
    exact (pyFrame_foldl_invariant normalizeColFns
      { caller := t, cur := t, aliased := true }).1 rfl rfl |>.2

/-- C9, witness: the amended theorem applied to a table with a PPM column
(caller untouched) and to the flow-only table (caller aliased to the result). -/
theorem C9_normalize_aliasing_witness :
    (normalizeAvaColsRun tPipelineDemo).1 = tPipelineDemo
    ∧ (normalizeAvaColsRun tFlowOnly).1 = (normalizeAvaColsRun tFlowOnly).2 :=
  ⟨(C9_normalize_aliasing tPipelineDemo).1 (by decide),
   (C9_normalize_aliasing tFlowOnly).2 (by decide)⟩

/-! ## Claim C3: missing-column behavior of the cascade -/

/-- C3, counterexample.  The claim says every requested filter whose column is
absent short-circuits the cascade to an empty table.  Requesting a
subcatchment filter on a table without a `subC` column merely logs a warning
and skips the stage: the row survives and the result is non-empty. -/
theorem C3_counterexample :
    (filterScenarioResults tMissingSubC critSubCOnly []).1.rows = tMissingSubC.rows
    ∧ (filterScenarioResults tMissingSubC critSubCOnly []).2 = [LogEvent.warnMissing "subC"]
    ∧ tMissingSubC.rows ≠ [] := by
  decide

/-- C3, amended.  When a requested attribute filter (subcatchment, sector,
flow, lower or upper elevation bound) references a column the table lacks,
that stage logs a warning and is a no-op (the table passes through
unchanged); only the classification join abandons the scenario with an empty
table — in the general case when any of the four join-key columns is missing
after stamping, and in the size-1 case when `modType` is missing.  Nothing
raises (the embedding is total). -/
theorem C3_missing_column_policy :
    (∀ (t : Table) (subCs : List Value), subCs ≠ [] → t.hasCol "subC" = false →
      subCStage t subCs = (t, [LogEvent.warnMissing "subC"]))
    ∧ (∀ (t : Table) (sectors : List String), sectors ≠ [] → t.hasCol "sector" = false →
      sectorStage t sectors = (t, [LogEvent.warnMissing "sector"]))
    ∧ (∀ (t : Table) (flows : List String), flows ≠ [] → t.hasCol "flow" = false →
      flowStage t flows = (t, [LogEvent.warnMissing "flow"]))
    ∧ (∀ (t : Table) (m : Int), t.hasCol "elevMin" = false →
      elevMinStage t (some m) = (t, [LogEvent.warnMissing "elevMin"]))
    ∧ (∀ (t : Table) (m : Int), t.hasCol "elevMax" = false →
      elevMaxStage t (some m) = (t, [LogEvent.warnMissing "elevMax"]))
    ∧ (∀ (t : Table) (rawPots : List String) (sizeRef : Int) (legend : List LegendRow),
        legSelOf legend (normalizePots rawPots) sizeRef ≠ [] → sizeRef ≠ 1 →
        joinColNames.all (stampMeta (coerceJoinCols t) (normalizePots rawPots) sizeRef).hasCol
          = false →
        (legendStage t rawPots sizeRef legend).1.rows = [])
    ∧ (∀ (t : Table) (rawPots : List String) (legend : List LegendRow),
        legSelOf legend (normalizePots rawPots) 1 ≠ [] →
        (stampMeta (coerceJoinCols t) (normalizePots rawPots) 1).hasCol "modType" = false →
        (legendStage t rawPots 1 legend).1.rows = []) := by
  refine ⟨?_, ?_, ?_, ?_, ?_, ?_, ?_⟩
  · intro t subCs hne hcol
    unfold subCStage
    rw [if_neg (by simpa using hne), if_pos (by rw [hcol]; rfl)]
  · intro t sectors hne hcol
    unfold sectorStage
    rw [if_neg (by simpa using hne), if_pos (by rw [hcol]; rfl)]
  · intro t flows hne hcol
    unfold flowStage
    rw [if_neg (by simpa using hne), if_pos (by rw [hcol]; rfl)]
  · intro t m hcol
    unfold elevMinStage
    dsimp only
    rw [if_pos (by rw [hcol]; rfl)]
  · intro t m hcol
    unfold elevMaxStage
    dsimp only
    rw [if_pos (by rw [hcol]; rfl)]
  · intro t rawPots sizeRef legend hne hsize hcols
    simp only [legendStage]
    rw [if_neg (by simpa using hne), if_neg hsize, if_pos (by rw [hcols]; rfl)]
    rfl
  · intro t rawPots legend hne hcol
    simp only [legendStage]
    rw [if_neg (by simpa using hne), if_pos trivial, if_pos (by rw [hcol]; rfl)]
    rfl

/-- C3, witness: the subcatchment no-op on a concrete table without `subC`,
and the join abandon on a table lacking the join keys while the ("high", 4)
selection is non-empty in the built-in matrix. -/
theorem C3_missing_column_policy_witness :
    subCStage tMissingSubC [Value.num 1] = (tMissingSubC, [LogEvent.warnMissing "subC"])
    ∧ (legendStage tFlowOnly ["high"] 4 avaPotMatrix).1.rows = [] :=
  ⟨C3_missing_column_policy.1 tMissingSubC [Value.num 1] (by decide) (by decide),
   C3_missing_column_policy.2.2.2.2.2.1 tFlowOnly ["high"] 4 avaPotMatrix
     (by decide) (by decide) (by decide)⟩

/-! ## Helper lemmas: well-formedness and cell access -/

theorem WF_mapCol (t : Table) (c : String) (f : Value → Value) (h : t.WF) :
    (t.mapCol c f).WF := by
  unfold Table.mapCol
  cases hidx : t.cols.findIdx? (· = c) with
  | some i =>
    intro r hr
    rcases List.mem_map.mp hr with ⟨r0, hr0, rfl⟩
    simp [List.length_set, h r0 hr0]
  | none => exact h

theorem WF_renameExact (t : Table) (a b : String) (h : t.WF) : (t.renameExact a b).WF := by
  intro r hr
  unfold Table.renameExact at hr ⊢
  simp only [List.length_map]
  exact h r hr

theorem WF_coerceJoinCols (t : Table) (h : t.WF) : (coerceJoinCols t).WF := by
  unfold coerceJoinCols
  simp only [List.foldl_cons, List.foldl_nil]
  apply WF_mapCol
  apply WF_mapCol
  apply WF_mapCol
  apply WF_mapCol
  split <;> split <;>
    first
      | exact h
      | exact WF_renameExact _ _ _ h
      | exact WF_renameExact _ _ _ (WF_renameExact _ _ _ h)

theorem WF_setConst (t : Table) (c : String) (v : Value) (h : t.WF) : (t.setConst c v).WF := by
  unfold Table.setConst
  cases hidx : t.cols.findIdx? (· = c) with
  | some i =>
    intro r hr
    rcases List.mem_map.mp hr with ⟨r0, hr0, rfl⟩
    simp [List.length_set, h r0 hr0]
  | none =>
    intro r hr
    rcases List.mem_map.mp hr with ⟨r0, hr0, rfl⟩
    simp [h r0 hr0]

theorem WF_stampMeta (t : Table) (pots : List String) (sizeRef : Int) (h : t.WF) :
    (stampMeta t pots sizeRef).WF :=
  WF_setConst _ _ _ (WF_setConst _ _ _ h)

/-- Reading a cell of a `setConst` result: the written column reads the
written value, any other column reads from the corresponding original row. -/
theorem get_setConst (u : Table) (c : String) (v : Value) (hWF : u.WF) (d : String) :
    ∀ r ∈ (u.setConst c v).rows,
      (d = c → (u.setConst c v).get r d = v)
      ∧ (d ≠ c → ∃ r0 ∈ u.rows, (u.setConst c v).get r d = u.get r0 d) := by
  intro r hr
  unfold Table.setConst at hr
  unfold Table.setConst Table.get getCell
  cases hidx : u.cols.findIdx? (· = c) with
  | some i =>
    rw [hidx] at hr
    dsimp only at hr
    rcases List.mem_map.mp hr with ⟨r0, hr0, rfl⟩
    dsimp only
    have hib : i < u.cols.length := by
      rcases List.findIdx?_eq_some_iff_getElem.mp hidx with ⟨hlt, _, _⟩
      exact hlt
    have hlen : r0.length = u.cols.length := hWF r0 hr0
    constructor
    · intro hd
      subst hd
      rw [hidx]
      dsimp only
      rw [List.getD_eq_getElem?_getD, List.getElem?_set_self (by rw [hlen]; exact hib)]
      rfl
    · intro hd
      refine ⟨r0, hr0, ?_⟩
      cases hjdx : u.cols.findIdx? (· = d) with
      | none => rfl
      | some j =>
        dsimp only
        have hji : i ≠ j := by
          intro he
          apply hd
          rcases List.findIdx?_eq_some_iff_getElem.mp hidx with ⟨hlt1, hp1, _⟩
          rcases List.findIdx?_eq_some_iff_getElem.mp hjdx with ⟨hlt2, hp2, _⟩
          subst he
          have h1 : u.cols[i] = c := by simpa using hp1
          have h2 : u.cols[i] = d := by simpa using hp2
          rw [← h2, h1]
        rw [List.getD_eq_getElem?_getD, List.getD_eq_getElem?_getD,
          List.getElem?_set_ne hji]
  | none =>
    rw [hidx] at hr
    dsimp only at hr
    rcases List.mem_map.mp hr with ⟨r0, hr0, rfl⟩
    dsimp only
    have hlen : r0.length = u.cols.length := hWF r0 hr0
    constructor
    · intro hd
      subst hd
      have happ : (u.cols ++ [d]).findIdx? (· = d) = some u.cols.length := by
        rw [List.findIdx?_append, hidx]
        simp [List.findIdx?_cons]
      rw [happ]
      dsimp only
      rw [List.getD_eq_getElem?_getD, List.getElem?_append_right (le_of_eq hlen),
        ← hlen, Nat.sub_self]
      rfl
    · intro hd
      refine ⟨r0, hr0, ?_⟩
      have happ : (u.cols ++ [c]).findIdx? (· = d) = u.cols.findIdx? (· = d) := by
        rw [List.findIdx?_append]
        have hone : ([c].findIdx? (· = d)) = none := by
          simp only [List.findIdx?_cons]
          rw [decide_eq_false (fun he => hd he.symm)]
          rfl
        rw [hone]
        simp
      rw [happ]
      cases hjdx : u.cols.findIdx? (· = d) with
      | none => rfl
      | some j =>
        dsimp only
        have hjb : j < u.cols.length := by
          rcases List.findIdx?_eq_some_iff_getElem.mp hjdx with ⟨hlt, _, _⟩
          exact hlt
        rw [List.getD_eq_getElem?_getD, List.getD_eq_getElem?_getD,
          List.getElem?_append_left (by rw [hlen]; exact hjb)]

/-- The two metadata cells of every stamped row. -/
theorem stampMeta_get (u : Table) (pots : List String) (sizeRef : Int) (hWF : u.WF) :
    ∀ r ∈ (stampMeta u pots sizeRef).rows,
      (stampMeta u pots sizeRef).get r "AvaDistributionPotential"
        = Value.str (joinedPotsLabel pots)
      ∧ (stampMeta u pots sizeRef).get r "AvaSizePotential" = Value.num sizeRef := by
  intro r hr
  unfold stampMeta at hr ⊢
  have hWF1 : (u.setConst "AvaDistributionPotential"
      (Value.str (joinedPotsLabel pots))).WF := WF_setConst _ _ _ hWF
  constructor
  · rcases (get_setConst _ "AvaSizePotential" (Value.num sizeRef) hWF1
        "AvaDistributionPotential" r hr).2 (by decide) with ⟨r1, hr1, hget⟩
    rw [hget]
    exact ((get_setConst u "AvaDistributionPotential" (Value.str (joinedPotsLabel pots)) hWF
      "AvaDistributionPotential" r1 hr1).1 rfl)
  · exact (get_setConst _ "AvaSizePotential" (Value.num sizeRef) hWF1
      "AvaSizePotential" r hr).1 rfl

/-! ## Claim C2: the general classification join -/

theorem filterMap_single_of_nodup {α β : Type} [DecidableEq α] (k : α) (r : β)
    (al : List α) (hnd : al.Nodup) :
    al.filterMap (fun q => if k = q then some r else none)
      = if al.contains k then [r] else [] := by
  induction al with
  | nil => simp
  | cons a as ih =>
    rw [List.filterMap_cons]
    by_cases hk : k = a
    · subst hk
      have hnotin : k ∉ as := (List.nodup_cons.mp hnd).1
      have hrest : as.filterMap (fun q => if k = q then some r else none) = [] := by
        rw [List.filterMap_eq_nil_iff]
        intro q hq
        rw [if_neg (fun he => hnotin (by rw [he]; exact hq))]
      rw [if_pos rfl]
      dsimp only
      rw [hrest, if_pos (by simp)]
    · have hca : (a :: as).contains k = as.contains k := by
        rw [List.contains_cons]
        have hbeq : (k == a) = false := by simp [hk]
        rw [hbeq, Bool.false_or]
      rw [if_neg hk]
      dsimp only
      rw [ih (List.nodup_cons.mp hnd).2, hca]

theorem get_mergeInner (t : Table) (al : List (List Value)) (r : List Value) (c : String) :
    (mergeInner t al).get r c = t.get r c := rfl

theorem mergeInner_rows (t : Table) (allowed : List (List Value)) (hnd : allowed.Nodup) :
    (mergeInner t allowed).rows
      = t.rows.filter (fun r => allowed.contains (rowQuad t r)) := by
  show t.rows.flatMap _ = _
  suffices hgen : ∀ rs : List (List Value),
      rs.flatMap (fun r => allowed.filterMap
        (fun q => if rowQuad t r = q then some r else none))
      = rs.filter (fun r => allowed.contains (rowQuad t r)) from hgen t.rows
  intro rs
  induction rs with
  | nil => rfl
  | cons r rs ih =>
    rw [List.flatMap_cons, filterMap_single_of_nodup (rowQuad t r) r allowed hnd, ih]
    rw [List.filter_cons]
    by_cases hc : rowQuad t r ∈ allowed <;> simp [hc]

theorem expandAllowed_nodup (legSel : List LegendRow) : (expandAllowed legSel).Nodup := by
  unfold expandAllowed
  have h := dedupKeep_map_nodup (id : List Value → List Value)
    ((legSel.map (fun r => [r.PPM, r.PEM, r.rSize, normStrV r.modType])).filter
        (fun q => !(q.getD 3 .null == Value.str "res / rel"))
      ++ ((legSel.map (fun r => [r.PPM, r.PEM, r.rSize, normStrV r.modType])).filter
        (fun q => q.getD 3 .null == Value.str "res / rel")).map (fun q => q.set 3 (.str "res"))
      ++ ((legSel.map (fun r => [r.PPM, r.PEM, r.rSize, normStrV r.modType])).filter
        (fun q => q.getD 3 .null == Value.str "res / rel")).map (fun q => q.set 3 (.str "rel")))
    []
  simpa using h

/-- C2.  In the general classification-join case (reference size class ≠ 1,
non-empty legend selection, all four join-key columns present after
stamping), the legend stage's result is exactly the filter of the stamped
coerced table by membership of the row's (PPM, PEM, rSize, modType) quadruple
in the expanded, deduplicated allowed set (so a row survives the join if and
only if its quadruple matches, each surviving row kept once in input order);
and every surviving row carries the sorted comma-joined potential label set
and the reference size class in the two metadata columns. -/
theorem C2_general_join (t : Table) (rawPots : List String) (sizeRef : Int)
    (legend : List LegendRow) (hWF : t.WF) (hsize : sizeRef ≠ 1)
    (hsel : legSelOf legend (normalizePots rawPots) sizeRef ≠ [])
    (hcols : joinColNames.all
      (stampMeta (coerceJoinCols t) (normalizePots rawPots) sizeRef).hasCol = true) :
    (legendStage t rawPots sizeRef legend).1.rows
      = (stampMeta (coerceJoinCols t) (normalizePots rawPots) sizeRef).rows.filter
          (fun r => (expandAllowed (legSelOf legend (normalizePots rawPots) sizeRef)).contains
            (rowQuad (stampMeta (coerceJoinCols t) (normalizePots rawPots) sizeRef) r))
    ∧ (∀ r ∈ (legendStage t rawPots sizeRef legend).1.rows,
        (legendStage t rawPots sizeRef legend).1.get r "AvaDistributionPotential"
          = Value.str (joinedPotsLabel (normalizePots rawPots))
        ∧ (legendStage t rawPots sizeRef legend).1.get r "AvaSizePotential"
          = Value.num sizeRef) := by
  have hstage : legendStage t rawPots sizeRef legend
      = (mergeInner (stampMeta (coerceJoinCols t) (normalizePots rawPots) sizeRef)
          (expandAllowed (legSelOf legend (normalizePots rawPots) sizeRef)), []) := by
    simp only [legendStage]
    rw [if_neg (by simpa using hsel), if_neg hsize, if_neg (by rw [hcols]; decide)]
  have hrows := mergeInner_rows
    (stampMeta (coerceJoinCols t) (normalizePots rawPots) sizeRef)
    (expandAllowed (legSelOf legend (normalizePots rawPots) sizeRef))
    (expandAllowed_nodup _)
  constructor
  · rw [hstage]
    exact hrows
  · intro r hr
    rw [hstage] at hr
    dsimp only at hr
    rw [hrows] at hr
    have hr2 : r ∈ (stampMeta (coerceJoinCols t) (normalizePots rawPots) sizeRef).rows :=
      (List.mem_filter.mp hr).1
    have hmeta := stampMeta_get (coerceJoinCols t) (normalizePots rawPots) sizeRef
      (WF_coerceJoinCols t hWF) r hr2
    rw [hstage]
    dsimp only
    rw [get_mergeInner, get_mergeInner]
    exact hmeta

/-- C2, witness: the characterization applied to a concrete two-row join-ready
table with the built-in matrix at ("high", size 4). -/
theorem C2_general_join_witness :
    (legendStage tJoinDemo ["high"] 4 avaPotMatrix).1.rows
      = (stampMeta (coerceJoinCols tJoinDemo) (normalizePots ["high"]) 4).rows.filter
          (fun r => (expandAllowed (legSelOf avaPotMatrix (normalizePots ["high"]) 4)).contains
            (rowQuad (stampMeta (coerceJoinCols tJoinDemo) (normalizePots ["high"]) 4) r)) :=
  (C2_general_join tJoinDemo ["high"] 4 avaPotMatrix (by decide) (by decide)
    (by decide) (by decide)).1

/-! ## Claim C10: idempotence of the column normalizer -/

theorem chLower_chUpper (c : Char) : chLower (chUpper c) = chLower c := by
  cases h : lowerPairs.find? (fun p => p.2 = c) with
  | none => rw [chUpper_none h]
  | some pr =>
    have hmem : pr ∈ lowerPairs := List.mem_of_find?_eq_some h
    have hpc : pr.2 = c := by simpa using List.find?_some h
    rw [chUpper_some h, ← hpc]
    exact (by decide : ∀ p ∈ lowerPairs, chLower p.1 = chLower p.2) pr hmem

theorem pyLower_pyUpper (s : String) : pyLower (pyUpper s) = pyLower s := by
  unfold pyLower pyUpper
  apply congrArg
  simp only [List.map_map]
  exact List.map_congr_left (fun c _ => chLower_chUpper c)

theorem pyUpper_idem (s : String) : pyUpper (pyUpper s) = pyUpper s := by
  unfold pyUpper
  apply congrArg
  simp only [List.map_map]
  exact List.map_congr_left (fun c _ => chUpper_idem c)

theorem ppmPemName_up (c : String) : ppmPemName (renameUpMap c) = ppmPemName c := by
  unfold renameUpMap
  by_cases h : ppmPemName c
  · rw [if_pos h]
    unfold ppmPemName
    rw [pyLower_pyUpper]
  · rw [if_neg h]

theorem renameUpMap_idem (c : String) : renameUpMap (renameUpMap c) = renameUpMap c := by
  by_cases h : ppmPemName c
  · have h1 : renameUpMap c = pyUpper c := by unfold renameUpMap; rw [if_pos h]
    have h2 : ppmPemName (renameUpMap c) = true := by rw [ppmPemName_up]; exact h
    rw [h1] at h2 ⊢
    unfold renameUpMap
    rw [if_pos h2, pyUpper_idem]
  · have h1 : renameUpMap c = c := by unfold renameUpMap; rw [if_neg h]
    rw [h1, h1]

theorem mapCol_cols (t : Table) (c : String) (f : Value → Value) :
    (t.mapCol c f).cols = t.cols := by
  unfold Table.mapCol
  cases h : t.cols.findIdx? (· = c) <;> rfl

theorem foldl_mapCol_cols (fns : List (String × (Value → Value))) :
    ∀ t : Table, (fns.foldl (fun a p => a.mapCol p.1 p.2) t).cols = t.cols := by
  induction fns with
  | nil => intro t; rfl
  | cons p fns ih =>
    intro t
    rw [List.foldl_cons, ih, mapCol_cols]

theorem row_set_idem (i : Nat) (f : Value → Value) (hf : ∀ v, f (f v) = f v)
    (r : List Value) :
    (r.set i (f (r.getD i .null))).set i
        (f ((r.set i (f (r.getD i .null))).getD i .null))
      = r.set i (f (r.getD i .null)) := by
  by_cases hi : i < r.length
  · have hget : (r.set i (f (r.getD i Value.null))).getD i Value.null
        = f (r.getD i Value.null) := by
      rw [List.getD_eq_getElem?_getD, List.getElem?_set_self (by simpa using hi)]
      rfl
    rw [hget, hf, List.set_set]
  · have hoob : ∀ a : Value, r.set i a = r :=
      fun a => List.set_eq_of_length_le (Nat.le_of_not_lt hi)
    simp [hoob]

theorem mapCol_absent (u : Table) (c : String) (f : Value → Value)
    (h : u.cols.findIdx? (· = c) = none) : u.mapCol c f = u := by
  unfold Table.mapCol
  rw [h]

theorem mapCol_present (u : Table) (c : String) (f : Value → Value) (i : Nat)
    (h : u.cols.findIdx? (· = c) = some i) :
    u.mapCol c f
      = { cols := u.cols, rows := u.rows.map (fun r => r.set i (f (r.getD i .null))) } := by
  unfold Table.mapCol
  rw [h]

theorem mapCol_mapCol_same (t : Table) (c : String) (f : Value → Value)
    (hf : ∀ v, f (f v) = f v) : (t.mapCol c f).mapCol c f = t.mapCol c f := by
  cases h : t.cols.findIdx? (· = c) with
  | none => rw [mapCol_absent t c f h, mapCol_absent t c f h]
  | some i =>
    rw [mapCol_present t c f i h,
      mapCol_present (Table.mk t.cols (t.rows.map
        (fun r => r.set i (f (r.getD i .null))))) c f i h]
    simp only [List.map_map]
    refine congrArg (fun rs => Table.mk t.cols rs) ?_
    apply List.map_congr_left
    intro r _
    exact row_set_idem i f hf r

theorem mapCol_comm (t : Table) (c d : String) (f g : Value → Value) (hne : c ≠ d) :
    (t.mapCol c f).mapCol d g = (t.mapCol d g).mapCol c f := by
  cases hc : t.cols.findIdx? (· = c) with
  | none =>
    rw [mapCol_absent t c f hc, mapCol_absent (t.mapCol d g) c f (by rw [mapCol_cols]; exact hc)]
  | some i =>
    cases hd : t.cols.findIdx? (· = d) with
    | none =>
      rw [mapCol_absent t d g hd,
        mapCol_absent (t.mapCol c f) d g (by rw [mapCol_cols]; exact hd)]
    | some j =>
      have hij : i ≠ j := by
        intro he
        apply hne
        rcases List.findIdx?_eq_some_iff_getElem.mp hc with ⟨hlt1, hp1, _⟩
        rcases List.findIdx?_eq_some_iff_getElem.mp hd with ⟨hlt2, hp2, _⟩
        subst he
        have e1 : t.cols[i] = c := by simpa using hp1
        have e2 : t.cols[i] = d := by simpa using hp2
        rw [← e1, e2]
      rw [mapCol_present t c f i hc, mapCol_present t d g j hd,
        mapCol_present (Table.mk t.cols (t.rows.map
          (fun r => r.set i (f (r.getD i .null))))) d g j hd,
        mapCol_present (Table.mk t.cols (t.rows.map
          (fun r => r.set j (g (r.getD j .null))))) c f i hc]
      simp only [List.map_map]
      refine congrArg (fun rs => Table.mk t.cols rs) ?_
      apply List.map_congr_left
      intro r _
      show (r.set i (f (r.getD i .null))).set j
          (g ((r.set i (f (r.getD i .null))).getD j .null))
        = (r.set j (g (r.getD j .null))).set i
          (f ((r.set j (g (r.getD j .null))).getD i .null))
      have hgj : (r.set i (f (r.getD i .null))).getD j .null = r.getD j .null := by
        rw [List.getD_eq_getElem?_getD, List.getElem?_set_ne hij]
        exact (List.getD_eq_getElem?_getD r j Value.null).symm
      have hgi : (r.set j (g (r.getD j .null))).getD i .null = r.getD i .null := by
        rw [List.getD_eq_getElem?_getD, List.getElem?_set_ne (fun he => hij he.symm)]
        exact (List.getD_eq_getElem?_getD r i Value.null).symm
      rw [hgj, hgi, List.set_comm _ _ _ hij]

theorem foldl_mapCol_comm (c : String) (f : Value → Value) :
    ∀ fns : List (String × (Value → Value)), (∀ p ∈ fns, p.1 ≠ c) →
      ∀ t : Table,
        fns.foldl (fun a p => a.mapCol p.1 p.2) (t.mapCol c f)
          = (fns.foldl (fun a p => a.mapCol p.1 p.2) t).mapCol c f := by
  intro fns
  induction fns with
  | nil => intro _ t; rfl
  | cons p fns ih =>
    intro hnot t
    rw [List.foldl_cons, List.foldl_cons,
      mapCol_comm t c p.1 f p.2 (fun he => hnot p (List.mem_cons_self p fns) he.symm)]
    exact ih (fun q hq => hnot q (List.mem_cons_of_mem p hq)) (t.mapCol p.1 p.2)

theorem foldl_mapCol_idem :
    ∀ fns : List (String × (Value → Value)), (fns.map Prod.fst).Nodup →
      (∀ p ∈ fns, ∀ v, p.2 (p.2 v) = p.2 v) →
      ∀ t : Table,
        fns.foldl (fun a p => a.mapCol p.1 p.2)
            (fns.foldl (fun a p => a.mapCol p.1 p.2) t)
          = fns.foldl (fun a p => a.mapCol p.1 p.2) t := by
  intro fns
  induction fns with
  | nil => intro _ _ t; rfl
  | cons p fns ih =>
    intro hnd hid t
    have hnot : ∀ q ∈ fns, q.1 ≠ p.1 := by
      intro q hq he
      exact (List.nodup_cons.mp hnd).1 (by rw [← he]; exact List.mem_map_of_mem Prod.fst hq)
    have hA := foldl_mapCol_comm p.1 p.2 fns hnot t
    rw [List.foldl_cons, List.foldl_cons, hA,
      mapCol_mapCol_same (fns.foldl (fun a p => a.mapCol p.1 p.2) t) p.1 p.2
        (hid p (List.mem_cons_self p fns)), ← hA]
    exact ih (List.nodup_cons.mp hnd).2
      (fun q hq => hid q (List.mem_cons_of_mem p hq)) (t.mapCol p.1 p.2)

theorem pyFrame_foldl_cur :
    ∀ (fns : List (String × (Value → Value))) (st : PyFrame),
      (fns.foldl (fun s p => s.mapCol p.1 p.2) st).cur
        = fns.foldl (fun a p => a.mapCol p.1 p.2) st.cur := by
  intro fns
  induction fns with
  | nil => intro st; rfl
  | cons p fns ih =>
    intro st
    rw [List.foldl_cons, List.foldl_cons, ih]
    rfl

theorem renameCols_id_of_map_eq (u : Table) (f : String → String)
    (h : u.cols.map f = u.cols) : u.renameCols f = u := by
  unfold Table.renameCols
  rw [h]

/-- `normalizeAvaCols` as a plain table computation: rename when a PPM/PEM
column exists, then the column coercions in source order. -/
theorem normalizeAvaCols_eq (t : Table) :
    normalizeAvaCols t
      = normalizeColFns.foldl (fun a p => a.mapCol p.1 p.2)
          (if t.cols.any ppmPemName then t.renameCols renameUpMap else t) := by
  simp only [normalizeAvaCols, normalizeAvaColsRun]
  by_cases h : t.cols.any ppmPemName
  · rw [if_pos h, if_pos h]
    exact pyFrame_foldl_cur normalizeColFns _
  · rw [if_neg h, if_neg h]
    exact pyFrame_foldl_cur normalizeColFns _

/-- C10.  Column normalization is idempotent: normalizing an
already-normalized table changes nothing. -/
theorem C10_normalize_idem (t : Table) :
    normalizeAvaCols (normalizeAvaCols t) = normalizeAvaCols t := by
  have hnd : (normalizeColFns.map Prod.fst).Nodup := by decide
  have hid : ∀ p ∈ normalizeColFns, ∀ v, p.2 (p.2 v) = p.2 v := by
    intro p hp
    simp only [normalizeColFns, List.mem_cons, List.not_mem_nil, or_false] at hp
    rcases hp with rfl | rfl | rfl | rfl | rfl | rfl | rfl | rfl
    all_goals intro v
    all_goals first
      | exact toNumericV_idem v
      | exact normStrV_idem v
  rw [normalizeAvaCols_eq t, normalizeAvaCols_eq]
  by_cases h : t.cols.any ppmPemName
  · rw [if_pos h]
    have hcolsn : (normalizeColFns.foldl (fun a p => a.mapCol p.1 p.2)
        (t.renameCols renameUpMap)).cols = t.cols.map renameUpMap := by
      rw [foldl_mapCol_cols]
      rfl
    have hany : (normalizeColFns.foldl (fun a p => a.mapCol p.1 p.2)
        (t.renameCols renameUpMap)).cols.any ppmPemName = true := by
      rw [hcolsn]
      rcases List.any_eq_true.mp h with ⟨c0, hc0, hp0⟩
      apply List.any_eq_true.mpr
      refine ⟨renameUpMap c0, List.mem_map_of_mem _ hc0, ?_⟩
      rw [ppmPemName_up]
      exact hp0
    rw [if_pos hany]
    have hmapid : (normalizeColFns.foldl (fun a p => a.mapCol p.1 p.2)
          (t.renameCols renameUpMap)).cols.map renameUpMap
        = (normalizeColFns.foldl (fun a p => a.mapCol p.1 p.2)
          (t.renameCols renameUpMap)).cols := by
      rw [hcolsn, List.map_map]
      exact List.map_congr_left (fun c _ => renameUpMap_idem c)
    rw [renameCols_id_of_map_eq _ renameUpMap hmapid]
    exact foldl_mapCol_idem normalizeColFns hnd hid (t.renameCols renameUpMap)
  · rw [if_neg h]
    have hany : (normalizeColFns.foldl (fun a p => a.mapCol p.1 p.2) t).cols.any
        ppmPemName = false := by
      rw [foldl_mapCol_cols]
      exact eq_false_of_ne_true h
    rw [if_neg (ne_true_of_eq_false hany)]
    exact foldl_mapCol_idem normalizeColFns hnd hid t

end AvaMapper
